import Mathlib

/-!
Shallow embedding of the `kerja` logbook storage engine
(`internal/logbook`: tokenizer, reader, writer) for checking the
natural-language specification against the code.

Strings are modelled as `List Char` (Go strings over the lines of a
monthly file), files as their raw character content.  Machine `int`
indexes are modelled as `Int`.  All definitions are computable and are
translated from the Go source, function by function.
-/

set_option maxRecDepth 10000

namespace Kerja

/-- Convenience: the character list of a string literal. -/
def chars (s : String) : List Char := s.data

/-- Go `unicode.IsSpace`: the Unicode white-space characters recognised by
`strings.TrimSpace` and `strings.Fields`. -/
def isGoSpace (c : Char) : Bool :=
  c = ' ' ∨ c = '\t' ∨ c = '\n' ∨ c.toNat = 11 ∨ c.toNat = 12 ∨ c = '\r' ∨
  c.toNat = 0x85 ∨ c.toNat = 0xA0 ∨ c.toNat = 0x1680 ∨
  (0x2000 ≤ c.toNat ∧ c.toNat ≤ 0x200A) ∨ c.toNat = 0x2028 ∨ c.toNat = 0x2029 ∨
  c.toNat = 0x202F ∨ c.toNat = 0x205F ∨ c.toNat = 0x3000

/-- Go `strings.TrimSpace`: drop white space from both ends. -/
def trim (l : List Char) : List Char :=
  ((l.dropWhile isGoSpace).reverse.dropWhile isGoSpace).reverse

/-- Go `strings.HasPrefix`. -/
def hasPrefix (p l : List Char) : Bool :=
  match p, l with
  | [], _ => true
  | _ :: _, [] => false
  | a :: p, b :: l => a = b && hasPrefix p l

/-- The decimal digit character for `n` (used by Go's `%02d`/`%04d` and
`Format("15:04")` renderings; arguments are always below 10 at use sites). -/
def digitChar : Nat → Char
  | 0 => '0' | 1 => '1' | 2 => '2' | 3 => '3' | 4 => '4'
  | 5 => '5' | 6 => '6' | 7 => '7' | 8 => '8' | _ => '9'

/-- `[0-9]` of the entry regular expression (and Go `time` digit checks). -/
def isDigitC (c : Char) : Bool := 48 ≤ c.toNat ∧ c.toNat ≤ 57

/-- Numeric value of a digit character. -/
def digitVal (c : Char) : Nat := c.toNat - 48

/-- Two-digit zero-padded rendering (`%02d`, hours/minutes below 100). -/
def pad2 (n : Nat) : List Char := [digitChar (n / 10 % 10), digitChar (n % 10)]

/-- Four-digit zero-padded rendering (`%04d`, years below 10000). -/
def pad4 (n : Nat) : List Char :=
  [digitChar (n / 1000 % 10), digitChar (n / 100 % 10),
   digitChar (n / 10 % 10), digitChar (n % 10)]

/-- `logbook.Status`: whether an entry is still a todo or already done. -/
inductive Status where
  | todo : Status
  | done : Status
deriving DecidableEq, Repr, Inhabited

/-- `logbook.Entry`.  A Go `Entry` stores a full `time.Time`; its date
components are always inherited from the owning section, so only the
time of day (hour, minute) is kept here.  For every Go value
`Hour() < 24` and `Minute() < 60` hold. -/
structure Entry where
  status : Status
  hour : Nat
  minute : Nat
  text : List Char
  tags : List (List Char)
deriving DecidableEq, Repr, Inhabited

/-- A calendar date (`time.Time` truncated to its day, as used for
section headings). -/
structure Date where
  year : Nat
  month : Nat
  day : Nat
deriving DecidableEq, Repr, Inhabited

/-- `logbook.DateSection`. -/
structure DateSection where
  date : Date
  entries : List Entry
deriving DecidableEq, Repr, Inhabited

/-- The status character written by `formatEntry` (`' '` todo, `'x'` done). -/
def statusChar : Status → Char
  | .todo => ' '
  | .done => 'x'

/-- Trailing `" #tag"` segments written by `formatEntry`. -/
def tagsFmt : List (List Char) → List Char
  | [] => []
  | t :: ts => ' ' :: '#' :: (t ++ tagsFmt ts)

/-- `logbook.formatEntry`: `- [<space-or-x>] [<HH:MM>] <text>[ #tag]*`,
omitting the text segment when the text is empty and the tag segments when
there are no tags (`Time.Format "15:04"` zero-pads hour and minute to two
digits). -/
def formatEntry (e : Entry) : List Char :=
  '-' :: ' ' :: '[' :: statusChar e.status :: ']' :: ' ' :: '[' ::
  digitChar (e.hour / 10 % 10) :: digitChar (e.hour % 10) :: ':' ::
  digitChar (e.minute / 10 % 10) :: digitChar (e.minute % 10) :: ']' ::
  ((if e.text.isEmpty then [] else ' ' :: e.text) ++ tagsFmt e.tags)

/-- Index of the first occurrence of `" #"` (Go `strings.Index(rest, " #")`),
as used by `extractTextAndTags`. -/
def idxSpaceHash : List Char → Option Nat
  | [] => none
  | c :: tl =>
    if c = ' ' ∧ tl.head? = some '#' then some 0
    else (idxSpaceHash tl).map (· + 1)

/-- Single pass of Go `strings.Fields`: `acc` holds the reversed
characters of the word currently being read. -/
def fieldsAux : List Char → List Char → List (List Char)
  | [], acc => if acc.isEmpty then [] else [acc.reverse]
  | c :: tl, acc =>
    if isGoSpace c then
      if acc.isEmpty then fieldsAux tl [] else acc.reverse :: fieldsAux tl []
    else fieldsAux tl (c :: acc)

/-- Go `strings.Fields`: split around runs of white space. -/
def fields (l : List Char) : List (List Char) := fieldsAux l []

/-- `logbook.parseTags`: keep the white-space-separated tokens that start
with `'#'` and have length above one, strip all leading `'#'` characters
(`strings.TrimLeft(field, "#")`), and drop the token when nothing is left. -/
def parseTags (segment : List Char) : List (List Char) :=
  (fields segment).filterMap fun f =>
    if f.head? = some '#' ∧ 1 < f.length then
      if f.dropWhile (· = '#') ≠ [] then some (f.dropWhile (· = '#')) else none
    else none

/-- `logbook.extractTextAndTags` after its initial trim: split at the
first `" #"` when present, otherwise treat a leading `'#'` as an all-tags
remainder, otherwise all text. -/
def extractCore (r : List Char) : List Char × List (List Char) :=
  if r = [] then ([], [])
  else
    match idxSpaceHash r with
    | some i => (trim (r.take i), parseTags (r.drop (i + 1)))
    | none => if r.head? = some '#' then ([], parseTags r) else (r, [])

/-- `logbook.extractTextAndTags` (the trim of the remainder split out as
`extractCore`). -/
def extractTextAndTags (rest : List Char) : List Char × List (List Char) :=
  extractCore (trim rest)

/-- `logbook.parseEntryLine`: the regular expression
`^- \[( |x)\] \[(\d)(\d):(\d)(\d)\] (.*)$` (Go `.` does not match a newline),
with `time.Parse("15:04", ..)` validating hour below 24, minute below 60. -/
def parseEntryLine (line : List Char) : Option Entry :=
  match line with
  | '-' :: ' ' :: '[' :: c :: ']' :: ' ' :: '[' ::
      a :: b :: ':' :: u :: v :: ']' :: ' ' :: rest =>
    if (c = ' ' ∨ c = 'x') ∧ isDigitC a ∧ isDigitC b ∧ isDigitC u ∧ isDigitC v ∧
        '\n' ∉ rest then
      if 10 * digitVal a + digitVal b < 24 ∧ 10 * digitVal u + digitVal v < 60 then
        some ⟨if c = 'x' then .done else .todo,
          10 * digitVal a + digitVal b, 10 * digitVal u + digitVal v,
          (extractTextAndTags rest).1, (extractTextAndTags rest).2⟩
      else none
    else none
  | _ => none

/-- Go leap-year rule (`time.isLeap`). -/
def isLeap (y : Nat) : Bool := y % 4 = 0 ∧ (y % 100 ≠ 0 ∨ y % 400 = 0)

/-- Days in a month (`time.daysIn`). -/
def daysInMonth (y m : Nat) : Nat :=
  if m = 2 then (if isLeap y then 29 else 28)
  else if m = 4 ∨ m = 6 ∨ m = 9 ∨ m = 11 then 30
  else 31

/-- Go `time.Parse("2006-01-02", s)`: exactly four digits, `'-'`, two
digits, `'-'`, two digits, nothing after; month in 1..12 and day within
the month (year unconstrained by `Parse`, four digits bound it by 9999). -/
def parseISODate (s : List Char) : Option Date :=
  match s with
  | [y1, y2, y3, y4, s1, m1, m2, s2, d1, d2] =>
    if s1 = '-' ∧ s2 = '-' ∧ isDigitC y1 ∧ isDigitC y2 ∧ isDigitC y3 ∧
        isDigitC y4 ∧ isDigitC m1 ∧ isDigitC m2 ∧ isDigitC d1 ∧ isDigitC d2 then
      if 1 ≤ digitVal m1 * 10 + digitVal m2 ∧ digitVal m1 * 10 + digitVal m2 ≤ 12 ∧
          1 ≤ digitVal d1 * 10 + digitVal d2 ∧
          digitVal d1 * 10 + digitVal d2 ≤
            daysInMonth
              (((digitVal y1 * 10 + digitVal y2) * 10 + digitVal y3) * 10 + digitVal y4)
              (digitVal m1 * 10 + digitVal m2) then
        some ⟨((digitVal y1 * 10 + digitVal y2) * 10 + digitVal y3) * 10 + digitVal y4,
          digitVal m1 * 10 + digitVal m2, digitVal d1 * 10 + digitVal d2⟩
      else none
    else none
  | _ => none

/-- `logbook.parseSectionHeading`: prefix `"## "`, then the rest of the
line, trimmed, parsed as `2006-01-02`. -/
def parseSectionHeading (line : List Char) : Option Date :=
  if hasPrefix (chars "## ") line then parseISODate (trim (line.drop 3))
  else none

/-- What `Parser.NextSection` does to each scanned line before testing it
for a heading: it trims it first (`strings.TrimSpace(p.scanner.Text())`). -/
def headingOf (rawLine : List Char) : Option Date :=
  parseSectionHeading (trim rawLine)

/-! ### Writer (`logbook.Writer`, from the writer source shipped with the
reader tests) -/

/-- Go `strings.ReplaceAll(input, "\r\n", "\n")` (left to right,
non-overlapping). -/
def replaceCRLF : List Char → List Char
  | [] => []
  | [c] => [c]
  | c :: d :: tl =>
    if c = '\r' ∧ d = '\n' then '\n' :: replaceCRLF tl
    else c :: replaceCRLF (d :: tl)

/-- Go `strings.Split(s, "\n")` (an empty input yields one empty segment). -/
def splitOnNl : List Char → List (List Char)
  | [] => [[]]
  | c :: tl =>
    if c = '\n' then [] :: splitOnNl tl
    else
      match splitOnNl tl with
      | h :: t => (c :: h) :: t
      | [] => [[c]]

/-- `logbook.splitLines`: normalise CRLF, split on LF, and drop the
trailing empty element produced when the input ends with a newline. -/
def splitLines (input : List Char) : List (List Char) :=
  if (splitOnNl (replaceCRLF input)).getLast? = some [] then
    (splitOnNl (replaceCRLF input)).dropLast
  else splitOnNl (replaceCRLF input)

/-- `strings.Join(lines, "\n")`. -/
def joinNl : List (List Char) → List Char
  | [] => []
  | [l] => l
  | l :: ls => l ++ '\n' :: joinNl ls

/-- The content written by `logbook.writeLines`: the joined lines with a
trailing newline ensured. -/
def joinLines (lines : List (List Char)) : List Char :=
  if (joinNl lines).getLast? = some '\n' then joinNl lines
  else joinNl lines ++ ['\n']

/-- `logbook.dateHeading`: `fmt.Sprintf("## %04d-%02d-%02d", ...)`. -/
def dateHeading (d : Date) : List Char :=
  '#' :: '#' :: ' ' :: (pad4 d.year ++ '-' :: (pad2 d.month ++ '-' :: pad2 d.day))

/-- First index (from the front) whose element satisfies `p`; models the
Go `for i, line := range lines` scans of `loadSection`. -/
def findFrom (p : List Char → Bool) : List (List Char) → Option Nat
  | [] => none
  | l :: ls => if p l then some 0 else (findFrom p ls).map (· + 1)

/-- The entry scan of `loadSection`: walk the body lines, pairing each
line that parses as an entry (after trimming) with its absolute line
index (`base` is the index of the first scanned line). -/
def entryScan (base : Nat) : List (List Char) → List (Nat × Entry)
  | [] => []
  | l :: ls =>
    match parseEntryLine (trim l) with
    | some e => (base, e) :: entryScan (base + 1) ls
    | none => entryScan (base + 1) ls

/-- `logbook.sectionState`. -/
structure SectionState where
  section_ : DateSection
  start : Nat
  end_ : Nat
  entryIndexes : List Nat
deriving DecidableEq, Repr, Inhabited

/-- `logbook.Writer.loadSection` on the month file content: the split
lines, and — when a line trim-equal to the date heading exists — the
section span `[start, end_)`, its parsed entries and their absolute line
indexes.  (`EnsureMonthFile` and `os.ReadFile` are the I/O boundary; the
file content is taken as the argument.) -/
def locateSection (d : Date) (lines : List (List Char)) : Option SectionState :=
  let heading := dateHeading d
  match findFrom (fun l => trim l = heading) lines with
  | none => none
  | some start =>
    let body := lines.drop (start + 1)
    let stop := (findFrom (fun l => hasPrefix (chars "## ") (trim l)) body).getD
      body.length
    let pairs := entryScan (start + 1) (body.take stop)
    some { section_ := ⟨d, pairs.map Prod.snd⟩
           start := start
           end_ := start + 1 + stop
           entryIndexes := pairs.map Prod.fst }

/-- `loadSection` proper: the split lines paired with the located state. -/
def loadSection (d : Date) (content : List Char) :
    List (List Char) × Option SectionState :=
  (splitLines content, locateSection d (splitLines content))

/-- The structural failures of the writer (`ErrSectionNotFound`,
`ErrInvalidIndex`); I/O failures are outside the model. -/
inductive WErr where
  | notFound : WErr
  | invalidIndex : WErr
deriving DecidableEq, Repr

/-- The `switch` of `Writer.Toggle` on the status value: todo becomes
done, done becomes todo (the Go `default:` arm normalising an
out-of-range status byte to todo is unreachable for parsed entries, and
`Status` has only the two values). -/
def flipS : Status → Status
  | .todo => .done
  | .done => .todo

/-- `Writer.Toggle` applied to the located entry. -/
def flipStatus (e : Entry) : Entry :=
  { e with status := flipS e.status }

/-- `logbook.needsSeparation`: a non-empty file whose last line does not
trim to blank needs a blank separator line. -/
def needsSeparation (lines : List (List Char)) : Bool :=
  match lines.getLast? with
  | none => false
  | some l => trim l ≠ []

/-- `logbook.insertLine`. -/
def insertLine (lines : List (List Char)) (index : Nat) (line : List Char) :
    List (List Char) :=
  if index > lines.length then lines ++ [line]
  else lines.take index ++ line :: lines.drop index

/-- `Writer.Append` on the file content.  `normalizeEntryTime` rebinds the
entry's time of day onto the target date; on the (status, hour, minute,
text, tags) view kept here it is the identity (`Hour()`/`Minute()` of the
zero `time.Time` are already 0). -/
def appendOp (d : Date) (e : Entry) (content : List Char) : List Char :=
  match loadSection d content with
  | (lines, none) =>
    let lines := if needsSeparation lines then lines ++ [[]] else lines
    joinLines (lines ++ [dateHeading d, formatEntry e])
  | (lines, some st) => joinLines (insertLine lines st.end_ (formatEntry e))

/-- `Writer.Toggle` on the file content: the result of the call and the
file content after it (unchanged when the call fails, since `writeLines`
only runs on success). -/
def toggleOp (d : Date) (index : Int) (content : List Char) :
    Except WErr Entry × List Char :=
  match loadSection d content with
  | (_, none) => (.error .notFound, content)
  | (lines, some st) =>
    if index < 1 ∨ index > st.entryIndexes.length then
      (.error .invalidIndex, content)
    else
      let k := st.entryIndexes.getD (index.toNat - 1) 0
      let e := flipStatus (st.section_.entries.getD (index.toNat - 1) default)
      (.ok e, joinLines (lines.set k (formatEntry e)))

/-- `Writer.Edit` on the file content (same shape as `Toggle`, replacing
the located line with the formatted caller-supplied entry). -/
def editOp (d : Date) (index : Int) (updated : Entry) (content : List Char) :
    Except WErr Unit × List Char :=
  match loadSection d content with
  | (_, none) => (.error .notFound, content)
  | (lines, some st) =>
    if index < 1 ∨ index > st.entryIndexes.length then
      (.error .invalidIndex, content)
    else
      let k := st.entryIndexes.getD (index.toNat - 1) 0
      (.ok (), joinLines (lines.set k (formatEntry updated)))

/-- `Writer.Delete` on the file content: remove exactly the located line. -/
def deleteOp (d : Date) (index : Int) (content : List Char) :
    Except WErr Entry × List Char :=
  match loadSection d content with
  | (_, none) => (.error .notFound, content)
  | (lines, some st) =>
    if index < 1 ∨ index > st.entryIndexes.length then
      (.error .invalidIndex, content)
    else
      let k := st.entryIndexes.getD (index.toNat - 1) 0
      let e := st.section_.entries.getD (index.toNat - 1) default
      (.ok e, joinLines (lines.take k ++ lines.drop (k + 1)))

/-! ### Reader (`logbook.Reader.SectionsBetween`)

`Reader.Section` opens and tokenizes the month file of its date; its
contract (a section, the distinguished not-found condition, or another
error) is abstracted as a per-day lookup function, days being counted as
integers so that `AddDate(0, 0, 1)` is `+ 1` and `Before`/`After` are the
integer order. -/

/-- Outcome classes of a `Reader.Section` call: `ErrSectionNotFound`, or
any other failure (I/O and the like, tagged by a code). -/
inductive RErr where
  | notFound : RErr
  | other : Nat → RErr
deriving DecidableEq, Repr

/-- The loop body of `SectionsBetween`: `n` counted iterations starting at
day `cur` (Go loops while `!current.After(end)`, one day at a time);
not-found days are skipped, any other error aborts with that error. -/
def sectionsLoop (sect : Int → Except RErr DateSection) :
    Nat → Int → Except RErr (List DateSection)
  | 0, _ => .ok []
  | n + 1, cur =>
    match sect cur with
    | .error .notFound => sectionsLoop sect n (cur + 1)
    | .error er => .error er
    | .ok s => (sectionsLoop sect n (cur + 1)).map (s :: ·)

/-- `Reader.SectionsBetween`: empty result when `end` is before `start`,
otherwise the day loop from `start` to `end_` inclusive. -/
def sectionsBetween (sect : Int → Except RErr DateSection) (start end_ : Int) :
    Except RErr (List DateSection) :=
  if end_ < start then .ok []
  else sectionsLoop sect ((end_ - start).toNat + 1) start

/-- The calendar days from `start` to `end_` inclusive (empty when `end_`
is before `start`). -/
def daysList (start end_ : Int) : List Int :=
  if end_ < start then []
  else (List.range ((end_ - start).toNat + 1)).map (fun (i : Nat) => start + (i : Int))

/-! ### Basic lemmas about `loadSection` and the mutating operations -/

theorem loadSection_fst (d : Date) (content : List Char) :
    (loadSection d content).1 = splitLines content := rfl

/-- The parsed entries and their line indexes are in bijection. -/
theorem locateSection_entries_length (d : Date) (lines : List (List Char))
    (st : SectionState) (h : locateSection d lines = some st) :
    st.section_.entries.length = st.entryIndexes.length := by
  simp only [locateSection] at h
  split at h
  · exact absurd h (by simp)
  · simp only [Option.some.injEq] at h
    subst h
    simp

/-! ### Claim C3: index bounds and the not-found condition -/

/-- C3: for a section with K parsed entries, `Toggle`, `Edit` and `Delete`
fail with the invalid-index condition for any index below 1 or above K and
succeed for any index in 1..K; when no section exists for the date they
fail with the distinct not-found condition. -/
theorem C3_index_bounds (d : Date) (content : List Char) (i : Int) (u : Entry) :
    (locateSection d (splitLines content) = none →
      (toggleOp d i content).1 = .error .notFound ∧
      (editOp d i u content).1 = .error .notFound ∧
      (deleteOp d i content).1 = .error .notFound) ∧
    (∀ st, locateSection d (splitLines content) = some st →
      st.section_.entries.length = st.entryIndexes.length ∧
      ((i < 1 ∨ i > st.entryIndexes.length) →
        (toggleOp d i content).1 = .error .invalidIndex ∧
        (editOp d i u content).1 = .error .invalidIndex ∧
        (deleteOp d i content).1 = .error .invalidIndex) ∧
      (1 ≤ i → i ≤ st.entryIndexes.length →
        (toggleOp d i content).1 =
          .ok (flipStatus (st.section_.entries.getD (i.toNat - 1) default)) ∧
        (editOp d i u content).1 = .ok () ∧
        (deleteOp d i content).1 =
          .ok (st.section_.entries.getD (i.toNat - 1) default))) := by
  constructor
  · intro h
    refine ⟨?_, ?_, ?_⟩ <;> simp [toggleOp, editOp, deleteOp, loadSection, h]
  · intro st hst
    refine ⟨locateSection_entries_length d _ st hst, ?_, ?_⟩
    · intro hio
      refine ⟨?_, ?_, ?_⟩ <;>
        simp only [toggleOp, editOp, deleteOp, loadSection, hst] <;>
        rw [if_pos hio]
    · intro h1 h2
      have hni : ¬ (i < 1 ∨ i > (st.entryIndexes.length : Int)) := by omega
      refine ⟨?_, ?_, ?_⟩ <;>
        simp only [toggleOp, editOp, deleteOp, loadSection, hst] <;>
        rw [if_neg hni]

/-- A concrete monthly file used by the witnesses: a two-entry section for
2025-11-04 and no section for 2025-11-05. -/
def wFile : List Char :=
  chars "## 2025-11-04\n- [ ] [09:00] a #b\n- [x] [10:30] c\n"

/-- The state `loadSection` finds in `wFile` for 2025-11-04. -/
def wState : SectionState :=
  { section_ :=
      { date := ⟨2025, 11, 4⟩
        entries := [⟨.todo, 9, 0, chars "a", [chars "b"]⟩,
                    ⟨.done, 10, 30, chars "c", []⟩] }
    start := 0
    end_ := 3
    entryIndexes := [1, 2] }

theorem C3_index_bounds_witness :
    (toggleOp ⟨2025, 11, 4⟩ 0 wFile).1 = .error .invalidIndex ∧
    (toggleOp ⟨2025, 11, 4⟩ 3 wFile).1 = .error .invalidIndex ∧
    (toggleOp ⟨2025, 11, 4⟩ 2 wFile).1 = .ok ⟨.todo, 10, 30, chars "c", []⟩ ∧
    (toggleOp ⟨2025, 11, 5⟩ 1 wFile).1 = .error .notFound := by
  have hsome : locateSection ⟨2025, 11, 4⟩ (splitLines wFile) = some wState := by decide
  have hnone : locateSection ⟨2025, 11, 5⟩ (splitLines wFile) = none := by decide
  have h4 := (C3_index_bounds ⟨2025, 11, 4⟩ wFile 0 default).2 wState hsome
  have h4b := (C3_index_bounds ⟨2025, 11, 4⟩ wFile 3 default).2 wState hsome
  have h4c := (C3_index_bounds ⟨2025, 11, 4⟩ wFile 2 default).2 wState hsome
  have h5 := (C3_index_bounds ⟨2025, 11, 5⟩ wFile 1 default).1 hnone
  exact ⟨(h4.2.1 (by decide)).1, (h4b.2.1 (by decide)).1,
    ((h4c.2.2 (by decide) (by decide)).1).trans (by rfl), h5.1⟩

/-! ### Claim C9: failed mutations leave the file untouched -/

/-- C9: whenever `Toggle`, `Edit` or `Delete` fails with the not-found or
invalid-index condition, the monthly file is byte-identical to before the
call — both structural checks happen before any write. -/
theorem C9_no_mutation_on_error (d : Date) (content : List Char) (i : Int)
    (u : Entry) :
    (∀ er, (toggleOp d i content).1 = .error er →
      (toggleOp d i content).2 = content) ∧
    (∀ er, (editOp d i u content).1 = .error er →
      (editOp d i u content).2 = content) ∧
    (∀ er, (deleteOp d i content).1 = .error er →
      (deleteOp d i content).2 = content) := by
  refine ⟨fun er h => ?_, fun er h => ?_, fun er h => ?_⟩ <;>
  · rcases hst : locateSection d (splitLines content) with _ | st
    · simp [toggleOp, editOp, deleteOp, loadSection, hst]
    · simp only [toggleOp, editOp, deleteOp, loadSection, hst] at h ⊢
      by_cases hio : (i < 1 ∨ i > (st.entryIndexes.length : Int))
      · rw [if_pos hio]
      · rw [if_neg hio] at h
        simp at h

theorem C9_no_mutation_on_error_witness :
    (toggleOp ⟨2025, 11, 4⟩ 0 wFile).1 = .error .invalidIndex ∧
    (toggleOp ⟨2025, 11, 4⟩ 0 wFile).2 = wFile ∧
    (deleteOp ⟨2025, 11, 5⟩ 1 wFile).1 = .error .notFound ∧
    (deleteOp ⟨2025, 11, 5⟩ 1 wFile).2 = wFile := by
  refine ⟨by rfl, ?_, by rfl, ?_⟩
  · exact (C9_no_mutation_on_error ⟨2025, 11, 4⟩ wFile 0 default).1
      .invalidIndex (by rfl)
  · exact (C9_no_mutation_on_error ⟨2025, 11, 5⟩ wFile 1 default).2.2
      .notFound (by rfl)

/-! ### Claim C2: mutations touch exactly one line -/

theorem findFrom_some_spec (p : List Char → Bool) :
    ∀ (ls : List (List Char)) (n : Nat), findFrom p ls = some n →
      n < ls.length ∧ p (ls.getD n []) = true ∧
        ∀ j, j < n → p (ls.getD j []) = false := by
  intro ls
  induction ls with
  | nil => intro n h; simp [findFrom] at h
  | cons l tl ih =>
    intro n h
    simp only [findFrom] at h
    by_cases hp : p l
    · rw [if_pos hp] at h
      cases h
      exact ⟨Nat.succ_pos _, hp, fun j hj => absurd hj (Nat.not_lt_zero j)⟩
    · rw [if_neg hp] at h
      rcases Option.map_eq_some'.1 h with ⟨m, hm, rfl⟩
      obtain ⟨hlt, hpm, hprev⟩ := ih m hm
      refine ⟨by simpa using Nat.succ_lt_succ hlt, by simpa using hpm, ?_⟩
      intro j hj
      match j with
      | 0 => simpa using eq_false_of_ne_true hp
      | j + 1 => simpa using hprev j (by omega)

theorem entryScan_mem_bounds (e : Entry) :
    ∀ (ls : List (List Char)) (base k : Nat), (k, e) ∈ entryScan base ls →
      base ≤ k ∧ k < base + ls.length := by
  intro ls
  induction ls with
  | nil => intro base k h; simp [entryScan] at h
  | cons l tl ih =>
    intro base k h
    simp only [entryScan] at h
    rcases hp : parseEntryLine (trim l) with _ | pe <;> rw [hp] at h
    · have := ih (base + 1) k h
      simp only [List.length_cons]
      omega
    · rcases List.mem_cons.1 h with he | ht
      · injection he with h1 h2
        simp only [List.length_cons]
        omega
      · have := ih (base + 1) k ht
        simp only [List.length_cons]
        omega

theorem locateSection_index_lt (d : Date) (lines : List (List Char))
    (st : SectionState) (hst : locateSection d lines = some st) :
    ∀ k ∈ st.entryIndexes, st.start < k ∧ k < st.end_ ∧ k < lines.length := by
  intro k hk
  simp only [locateSection] at hst
  split at hst
  · exact absurd hst (by simp)
  · rename_i start hfind
    obtain ⟨hslt, -, -⟩ := findFrom_some_spec _ _ _ hfind
    simp only [Option.some.injEq] at hst
    subst hst
    simp only at hk
    rcases List.mem_map.1 hk with ⟨⟨k', e⟩, hmem, rfl⟩
    obtain ⟨hge, hlt⟩ := entryScan_mem_bounds e _ _ _ hmem
    rw [List.length_take, List.length_drop] at hlt
    refine ⟨?_, ?_, ?_⟩ <;> simp only [List.length_drop] <;> omega

/-- C2: a successful `Toggle`, `Edit` or `Delete` targeting entry `i` of
the section for `d` rewrites exactly the targeted line (`Toggle`/`Edit`
replace it in place, `Delete` removes it); every other line of the file —
malformed lines and other sections included — is the same before and
after. -/
theorem C2_unrelated_lines_preserved (d : Date) (content : List Char) (i : Int)
    (u : Entry) (st : SectionState) (k : Nat)
    (hst : locateSection d (splitLines content) = some st)
    (h1 : 1 ≤ i) (h2 : i ≤ st.entryIndexes.length)
    (hk : st.entryIndexes.getD (i.toNat - 1) 0 = k) :
    k < (splitLines content).length ∧
    ((toggleOp d i content).2 =
        joinLines ((splitLines content).set k
          (formatEntry (flipStatus (st.section_.entries.getD (i.toNat - 1) default)))) ∧
      ∀ j, j ≠ k →
        ((splitLines content).set k
          (formatEntry (flipStatus (st.section_.entries.getD (i.toNat - 1) default))))[j]? =
          (splitLines content)[j]?) ∧
    ((editOp d i u content).2 =
        joinLines ((splitLines content).set k (formatEntry u)) ∧
      ∀ j, j ≠ k →
        ((splitLines content).set k (formatEntry u))[j]? =
          (splitLines content)[j]?) ∧
    ((deleteOp d i content).2 =
        joinLines ((splitLines content).take k ++ (splitLines content).drop (k + 1)) ∧
      (∀ j, j < k →
        ((splitLines content).take k ++ (splitLines content).drop (k + 1))[j]? =
          (splitLines content)[j]?) ∧
      (∀ j, k ≤ j →
        ((splitLines content).take k ++ (splitLines content).drop (k + 1))[j]? =
          (splitLines content)[j + 1]?)) := by
  subst hk
  have hni : ¬ (i < 1 ∨ i > (st.entryIndexes.length : Int)) := by omega
  have hidx : i.toNat - 1 < st.entryIndexes.length := by omega
  have hkm : st.entryIndexes.getD (i.toNat - 1) 0 ∈ st.entryIndexes := by
    rw [List.getD_eq_getElem _ _ hidx]
    exact List.getElem_mem hidx
  have hklt := (locateSection_index_lt d _ st hst _ hkm).2.2
  have hkle : st.entryIndexes.getD (i.toNat - 1) 0 ≤ (splitLines content).length :=
    Nat.le_of_lt hklt
  refine ⟨hklt, ⟨?_, ?_⟩, ⟨?_, ?_⟩, ?_, ?_, ?_⟩
  · simp only [toggleOp, loadSection, hst]
    rw [if_neg hni]
  · intro j hj
    exact List.getElem?_set_ne (by omega)
  · simp only [editOp, loadSection, hst]
    rw [if_neg hni]
  · intro j hj
    exact List.getElem?_set_ne (by omega)
  · simp only [deleteOp, loadSection, hst]
    rw [if_neg hni]
  · intro j hj
    rw [List.getElem?_append, if_pos (by rw [List.length_take]; omega),
      List.getElem?_take_of_lt hj]
  · intro j hj
    rw [List.getElem?_append,
      if_neg (by rw [List.length_take]; omega)]
    rw [List.length_take, Nat.min_eq_left hkle, List.getElem?_drop]
    congr 1
    omega

theorem C2_unrelated_lines_preserved_witness :
    (toggleOp ⟨2025, 11, 4⟩ 1 wFile).2 =
      joinLines ((splitLines wFile).set 1
        (formatEntry ⟨.done, 9, 0, chars "a", [chars "b"]⟩)) ∧
    ((splitLines wFile).set 1
        (formatEntry ⟨.done, 9, 0, chars "a", [chars "b"]⟩))[0]? =
      (splitLines wFile)[0]? ∧
    (deleteOp ⟨2025, 11, 4⟩ 1 wFile).2 =
      joinLines ((splitLines wFile).take 1 ++ (splitLines wFile).drop 2) := by
  have h := C2_unrelated_lines_preserved ⟨2025, 11, 4⟩ wFile 1 default wState 1
    (by decide) (by decide) (by decide) (by decide)
  exact ⟨(h.2.1.1).trans (by rfl), (h.2.1.2 0 (by decide)).trans (by rfl),
    (h.2.2.2.1).trans (by rfl)⟩

/-! ### Claim C8: blank separator on appending a new section -/

/-- C8: appending to a date with no section in a non-empty file puts the
new heading and formatted entry line at end of file, preceded by exactly
one blank separator line when the last line of the file is not blank, and
by none when it is. -/
theorem C8_append_new_section (d : Date) (e : Entry) (content : List Char)
    (hnone : locateSection d (splitLines content) = none)
    (hne : splitLines content ≠ []) :
    appendOp d e content =
      joinLines (splitLines content ++
        (if trim ((splitLines content).getLast hne) = [] then [] else [[]]) ++
        [dateHeading d, formatEntry e]) := by
  simp only [appendOp, loadSection, hnone, needsSeparation,
    List.getLast?_eq_getLast _ hne]
  by_cases htr : trim ((splitLines content).getLast hne) = []
  · simp [htr]
  · simp [htr, List.append_assoc]

theorem C8_append_new_section_witness :
    appendOp ⟨2025, 11, 5⟩ ⟨.todo, 8, 5, chars "hi", []⟩ (chars "# November 2025") =
      joinLines (splitLines (chars "# November 2025") ++ [[]] ++
        [dateHeading ⟨2025, 11, 5⟩, formatEntry ⟨.todo, 8, 5, chars "hi", []⟩]) ∧
    appendOp ⟨2025, 11, 5⟩ ⟨.todo, 8, 5, chars "hi", []⟩ (chars "# November 2025\n\n") =
      joinLines (splitLines (chars "# November 2025\n\n") ++
        [dateHeading ⟨2025, 11, 5⟩, formatEntry ⟨.todo, 8, 5, chars "hi", []⟩]) := by
  constructor
  · exact (C8_append_new_section ⟨2025, 11, 5⟩ ⟨.todo, 8, 5, chars "hi", []⟩
      (chars "# November 2025") (by decide) (by decide)).trans (by rfl)
  · exact (C8_append_new_section ⟨2025, 11, 5⟩ ⟨.todo, 8, 5, chars "hi", []⟩
      (chars "# November 2025\n\n") (by decide) (by decide)).trans (by rfl)

/-! ### Claim C5: SectionsBetween day iteration -/

/-- The fatal (non-not-found) error of a per-day lookup, if any. -/
def fatalOf (r : Except RErr DateSection) : Option RErr :=
  match r with
  | .error .notFound => none
  | .error er => some er
  | .ok _ => none

/-- The section of a successful per-day lookup, if any. -/
def okOf (r : Except RErr DateSection) : Option DateSection :=
  match r with
  | .ok s => some s
  | .error _ => none

/-- `n` consecutive days starting at `cur`. -/
def dayRange (n : Nat) (cur : Int) : List Int :=
  (List.range n).map (fun (i : Nat) => cur + (i : Int))

theorem dayRange_succ (n : Nat) (cur : Int) :
    dayRange (n + 1) cur = cur :: dayRange n (cur + 1) := by
  unfold dayRange
  rw [List.range_succ_eq_map]
  simp only [List.map_cons, List.map_map, Nat.cast_zero, add_zero]
  congr 1
  apply List.map_congr_left
  intro i hi
  show cur + ((i : Int) + 1) = cur + 1 + i
  ring

theorem sectionsLoop_spec (sect : Int → Except RErr DateSection) :
    ∀ (n : Nat) (cur : Int),
      sectionsLoop sect n cur =
        match (dayRange n cur).findSome? (fun d => fatalOf (sect d)) with
        | some er => .error er
        | none => .ok ((dayRange n cur).filterMap (fun d => okOf (sect d))) := by
  intro n
  induction n with
  | zero => intro cur; simp [sectionsLoop, dayRange]
  | succ m ih =>
    intro cur
    rw [dayRange_succ]
    rcases hc : sect cur with er | sec
    · rcases er with _ | code
      · have h1 : fatalOf (sect cur) = none := by rw [hc]; rfl
        have h2 : okOf (sect cur) = none := by rw [hc]; rfl
        simp only [List.findSome?_cons, List.filterMap_cons, h1, h2]
        simp only [sectionsLoop, hc]
        exact ih (cur + 1)
      · have h1 : fatalOf (sect cur) = some (.other code) := by rw [hc]; rfl
        simp only [List.findSome?_cons, h1]
        simp only [sectionsLoop, hc]
    · have h1 : fatalOf (sect cur) = none := by rw [hc]; rfl
      have h2 : okOf (sect cur) = some sec := by rw [hc]; rfl
      simp only [List.findSome?_cons, List.filterMap_cons, h1, h2]
      simp only [sectionsLoop, hc]
      rw [ih (cur + 1)]
      rcases hf : (dayRange m (cur + 1)).findSome? (fun d => fatalOf (sect d))
          with _ | er <;> rfl

theorem daysList_eq_dayRange (s e : Int) (h : ¬ e < s) :
    daysList s e = dayRange ((e - s).toNat + 1) s := by
  unfold daysList dayRange
  rw [if_neg h]

/-- C5: `SectionsBetween` visits each calendar day from start to end
inclusive in ascending order; an end before the start yields an empty
result (not an error); not-found days are silently omitted; the first
other per-day failure aborts the whole call with that error. -/
theorem C5_sections_between (sect : Int → Except RErr DateSection)
    (s e : Int) :
    (e < s → sectionsBetween sect s e = .ok []) ∧
    (daysList s e).Pairwise (· < ·) ∧
    (∀ er, (daysList s e).findSome? (fun d => fatalOf (sect d)) = some er →
      sectionsBetween sect s e = .error er) ∧
    ((daysList s e).findSome? (fun d => fatalOf (sect d)) = none →
      sectionsBetween sect s e =
        .ok ((daysList s e).filterMap (fun d => okOf (sect d)))) := by
  refine ⟨?_, ?_, ?_, ?_⟩
  · intro h
    simp [sectionsBetween, h]
  · unfold daysList
    split
    · exact List.Pairwise.nil
    · refine List.pairwise_map.2 ?_
      have := List.pairwise_lt_range ((e - s).toNat + 1)
      exact this.imp (by omega)
  · intro er hf
    by_cases hes : e < s
    · simp [daysList, hes] at hf
    · rw [daysList_eq_dayRange s e hes] at hf
      unfold sectionsBetween
      rw [if_neg hes, sectionsLoop_spec sect _ s, hf]
  · intro hf
    by_cases hes : e < s
    · simp [sectionsBetween, daysList, hes]
    · rw [daysList_eq_dayRange s e hes] at hf ⊢
      unfold sectionsBetween
      rw [if_neg hes, sectionsLoop_spec sect _ s, hf]

/-- A concrete per-day lookup for the C5 witness: day 2 has no section,
day 3 has one, day 4 fails with an I/O-style error. -/
def wSect (d : Int) : Except RErr DateSection :=
  if d = 2 then .error .notFound
  else if d = 4 then .error (.other 7)
  else .ok ⟨⟨2025, 11, d.toNat⟩, []⟩

theorem C5_sections_between_witness :
    sectionsBetween wSect 3 1 = .ok [] ∧
    sectionsBetween wSect 1 3 =
      .ok [⟨⟨2025, 11, 1⟩, []⟩, ⟨⟨2025, 11, 3⟩, []⟩] ∧
    sectionsBetween wSect 1 5 = .error (.other 7) := by
  have h1 := (C5_sections_between wSect 3 1).1 (by decide)
  have h2 := (C5_sections_between wSect 1 3).2.2.2 (by decide)
  have h3 := (C5_sections_between wSect 1 5).2.2.1 (.other 7) (by decide)
  exact ⟨h1, h2.trans (by rfl), h3⟩

/-! ### Claim C7: tag token recognition -/

/-- Tag-token recognition as the amended claim states it: a white-space
separated token is a tag exactly when it starts with a hash, is longer
than one character, and stripping all leading hashes leaves something;
the tag is the token with all leading hashes stripped. -/
def tagTokenSpec (f : List Char) : Option (List Char) :=
  if f.head? = some '#' ∧ 1 < f.length ∧ f.dropWhile (· = '#') ≠ [] then
    some (f.dropWhile (· = '#'))
  else none

/-- C7 counterexample: the token `#a-b` is recognised as the tag `a-b`
even though its content after the hash is not alphanumeric/underscore,
refuting the claimed "if and only if alphanumeric/underscore content". -/
theorem C7_cex_nonalnum_tag :
    parseTags (chars "#a-b") = [chars "a-b"] ∧
    ¬ (∀ c ∈ chars "a-b", c.isAlphanum ∨ c = '_') := by
  constructor
  · rfl
  · decide

/-- C7 (amended): in the tag segment a white-space separated token is
recognised as a tag iff it is hash-prefixed, longer than one character,
and has a non-empty remainder after stripping all leading hashes; tags
lose all leading hashes, keep insertion order and are not deduplicated
(the recognised tokens are mapped in order, duplicates kept). -/
theorem C7_tag_recognition_amended (segment : List Char) :
    parseTags segment = (fields segment).filterMap tagTokenSpec ∧
    ∀ t, (t ∈ parseTags segment ↔
      ∃ f ∈ fields segment,
        f.head? = some '#' ∧ 1 < f.length ∧ f.dropWhile (· = '#') = t ∧ t ≠ []) := by
  have heq : parseTags segment = (fields segment).filterMap tagTokenSpec := by
    unfold parseTags
    congr 1
    funext f
    by_cases h1 : f.head? = some '#' ∧ 1 < f.length
    · by_cases h2 : f.dropWhile (· = '#') = []
      · rw [if_pos h1, if_neg (by simp [h2]), tagTokenSpec,
          if_neg (by rintro ⟨-, -, hc⟩; exact hc h2)]
      · rw [if_pos h1, if_pos h2, tagTokenSpec, if_pos ⟨h1.1, h1.2, h2⟩]
    · rw [if_neg h1, tagTokenSpec, if_neg (fun hc => h1 ⟨hc.1, hc.2.1⟩)]
  refine ⟨heq, fun t => ?_⟩
  rw [heq, List.mem_filterMap]
  constructor
  · rintro ⟨f, hf, hspec⟩
    unfold tagTokenSpec at hspec
    split at hspec
    · rename_i hc
      cases hspec
      exact ⟨f, hf, hc.1, hc.2.1, rfl, hc.2.2⟩
    · cases hspec
  · rintro ⟨f, hf, hh, hl, hdrop, hne⟩
    refine ⟨f, hf, ?_⟩
    unfold tagTokenSpec
    rw [if_pos ⟨hh, hl, hdrop ▸ hne⟩, hdrop]

/-! ### Character-tracking lemmas (which characters can appear where) -/

theorem mem_of_mem_trim {c : Char} {l : List Char} (h : c ∈ trim l) : c ∈ l := by
  unfold trim at h
  rw [List.mem_reverse] at h
  have h2 := (List.dropWhile_sublist _).subset h
  rw [List.mem_reverse] at h2
  exact (List.dropWhile_sublist _).subset h2

theorem mem_of_mem_fieldsAux {c : Char} :
    ∀ (l acc : List Char) (f : List Char), f ∈ fieldsAux l acc → c ∈ f →
      c ∈ l ∨ c ∈ acc := by
  intro l
  induction l with
  | nil =>
    intro acc f hf hc
    simp only [fieldsAux] at hf
    split at hf
    · simp at hf
    · rw [List.mem_singleton] at hf
      subst hf
      exact Or.inr (List.mem_reverse.1 hc)
  | cons a tl ih =>
    intro acc f hf hc
    simp only [fieldsAux] at hf
    split at hf
    · split at hf
      · rcases ih [] f hf hc with h | h
        · exact Or.inl (List.mem_cons_of_mem a h)
        · simp at h
      · rcases List.mem_cons.1 hf with rfl | hf2
        · exact Or.inr (List.mem_reverse.1 hc)
        · rcases ih [] f hf2 hc with h | h
          · exact Or.inl (List.mem_cons_of_mem a h)
          · simp at h
    · rcases ih (a :: acc) f hf hc with h | h
      · exact Or.inl (List.mem_cons_of_mem a h)
      · rcases List.mem_cons.1 h with rfl | h2
        · exact Or.inl (List.mem_cons_self _ _)
        · exact Or.inr h2

theorem mem_of_mem_fields {c : Char} {l f : List Char}
    (hf : f ∈ fields l) (hc : c ∈ f) : c ∈ l := by
  rcases mem_of_mem_fieldsAux l [] f hf hc with h | h
  · exact h
  · simp at h

theorem mem_of_mem_parseTags {c : Char} {seg t : List Char}
    (ht : t ∈ parseTags seg) (hc : c ∈ t) : c ∈ seg := by
  unfold parseTags at ht
  rcases List.mem_filterMap.1 ht with ⟨f, hf, hsome⟩
  split at hsome
  · split at hsome
    · cases hsome
      exact mem_of_mem_fields hf ((List.dropWhile_sublist _).subset hc)
    · cases hsome
  · cases hsome

theorem mem_of_mem_extractCore {c : Char} {r : List Char} :
    (c ∈ (extractCore r).1 → c ∈ r) ∧
    (∀ t ∈ (extractCore r).2, c ∈ t → c ∈ r) := by
  unfold extractCore
  split
  · exact ⟨by intro h; simp at h, by intro t ht; simp at ht⟩
  · split
    · constructor
      · intro h
        exact List.take_subset _ _ (mem_of_mem_trim h)
      · intro t ht hc
        exact List.drop_subset _ _ (mem_of_mem_parseTags ht hc)
    · split
      · constructor
        · intro h; simp at h
        · intro t ht hc
          exact mem_of_mem_parseTags ht hc
      · exact ⟨fun h => h, by intro t ht; simp at ht⟩

theorem mem_of_mem_extract {c : Char} {rest : List Char} :
    (c ∈ (extractTextAndTags rest).1 → c ∈ rest) ∧
    (∀ t ∈ (extractTextAndTags rest).2, c ∈ t → c ∈ rest) := by
  unfold extractTextAndTags
  exact ⟨fun h => mem_of_mem_trim (mem_of_mem_extractCore.1 h),
    fun t ht hc => mem_of_mem_trim (mem_of_mem_extractCore.2 t ht hc)⟩

theorem mem_of_mem_parse {c : Char} {l : List Char} {e : Entry}
    (hp : parseEntryLine l = some e) :
    (c ∈ e.text → c ∈ l) ∧ (∀ t ∈ e.tags, c ∈ t → c ∈ l) := by
  unfold parseEntryLine at hp
  split at hp
  · rename_i c0 a b u v rest
    split at hp
    · split at hp
      · simp only [Option.some.injEq] at hp
        subst hp
        constructor
        · intro h
          have := mem_of_mem_extract.1 h
          simp [this]
        · intro t ht hc
          have := mem_of_mem_extract.2 t ht hc
          simp [this]
      · cases hp
    · cases hp
  · cases hp

theorem entryScan_mem_parse {e : Entry} {k : Nat} :
    ∀ (ls : List (List Char)) (base : Nat), (k, e) ∈ entryScan base ls →
      ∃ l ∈ ls, parseEntryLine (trim l) = some e := by
  intro ls
  induction ls with
  | nil => intro base h; simp [entryScan] at h
  | cons l tl ih =>
    intro base h
    simp only [entryScan] at h
    rcases hp : parseEntryLine (trim l) with _ | pe <;> rw [hp] at h
    · rcases ih (base + 1) h with ⟨l2, hl2, hpl2⟩
      exact ⟨l2, List.mem_cons_of_mem l hl2, hpl2⟩
    · rcases List.mem_cons.1 h with he | ht
      · injection he with h1 h2
        subst h2
        exact ⟨l, List.mem_cons_self l tl, hp⟩
      · rcases ih (base + 1) ht with ⟨l2, hl2, hpl2⟩
        exact ⟨l2, List.mem_cons_of_mem l hl2, hpl2⟩

/-- Every parsed entry of a located section comes from parsing the trim of
one of the file lines. -/
theorem locateSection_entry_parsed {d : Date} {lines : List (List Char)}
    {st : SectionState} (hst : locateSection d lines = some st)
    {e : Entry} (he : e ∈ st.section_.entries) :
    ∃ l ∈ lines, parseEntryLine (trim l) = some e := by
  simp only [locateSection] at hst
  split at hst
  · exact absurd hst (by simp)
  · simp only [Option.some.injEq] at hst
    subst hst
    simp only at he
    rcases List.mem_map.1 he with ⟨⟨k, e2⟩, hmem, hpe⟩
    cases hpe
    rcases entryScan_mem_parse _ _ hmem with ⟨l, hl, hpl⟩
    exact ⟨l, List.drop_subset _ _ (List.take_subset _ _ hl), hpl⟩

/-! ### Line-splitting and joining lemmas -/

theorem mem_of_mem_replaceCRLF {c : Char} :
    ∀ l : List Char, c ∈ replaceCRLF l → c ∈ l := by
  intro l
  induction l using replaceCRLF.induct with
  | case1 => intro h; simp [replaceCRLF] at h
  | case2 d => intro h; simpa [replaceCRLF] using h
  | case3 a d tl hcd ih =>
    intro h
    rw [replaceCRLF, if_pos hcd] at h
    rcases List.mem_cons.1 h with rfl | h2
    · simp [hcd.2]
    · simp [ih h2]
  | case4 a d tl hcd ih =>
    intro h
    rw [replaceCRLF, if_neg hcd] at h
    rcases List.mem_cons.1 h with rfl | h2
    · simp
    · simp [ih h2]

theorem replaceCRLF_eq_self {l : List Char} (h : '\r' ∉ l) :
    replaceCRLF l = l := by
  induction l using replaceCRLF.induct with
  | case1 => rfl
  | case2 d => rfl
  | case3 a d tl hcd ih =>
    exact absurd (hcd.1 ▸ List.mem_cons_self _ _) h
  | case4 a d tl hcd ih =>
    rw [replaceCRLF, if_neg hcd, ih (fun hm => h (List.mem_cons_of_mem _ hm))]

theorem splitOnNl_ne_nil : ∀ l : List Char, splitOnNl l ≠ [] := by
  intro l
  induction l with
  | nil => simp [splitOnNl]
  | cons c tl ih =>
    rw [splitOnNl]
    split
    · simp
    · rcases hs : splitOnNl tl with _ | ⟨h0, t⟩
      · simp
      · simp

theorem not_nl_mem_splitOnNl : ∀ (l : List Char) (s : List Char),
    s ∈ splitOnNl l → '\n' ∉ s := by
  intro l
  induction l with
  | nil =>
    intro s hs
    simp only [splitOnNl, List.mem_singleton] at hs
    simp [hs]
  | cons c tl ih =>
    intro s hs
    rw [splitOnNl] at hs
    split at hs
    · rcases List.mem_cons.1 hs with rfl | h2
      · simp
      · exact ih s h2
    · rename_i hc
      rcases hsp : splitOnNl tl with _ | ⟨h0, t⟩ <;> rw [hsp] at hs
      · rcases List.mem_singleton.1 hs with rfl
        intro hmem
        exact hc (List.mem_singleton.1 hmem).symm
      · rcases List.mem_cons.1 hs with rfl | h2
        · intro hmem
          rcases List.mem_cons.1 hmem with h3 | h4
          · exact hc h3.symm
          · exact ih h0 (hsp ▸ List.mem_cons_self _ _) h4
        · exact ih s (hsp ▸ List.mem_cons_of_mem _ h2)

theorem mem_of_mem_splitOnNl {c : Char} : ∀ (l : List Char) (s : List Char),
    s ∈ splitOnNl l → c ∈ s → c ∈ l := by
  intro l
  induction l with
  | nil =>
    intro s hs hc
    simp only [splitOnNl, List.mem_singleton] at hs
    subst hs
    simp at hc
  | cons a tl ih =>
    intro s hs hc
    rw [splitOnNl] at hs
    split at hs
    · rcases List.mem_cons.1 hs with rfl | h2
      · simp at hc
      · exact List.mem_cons_of_mem _ (ih s h2 hc)
    · rcases hsp : splitOnNl tl with _ | ⟨h0, t⟩ <;> rw [hsp] at hs
      · rcases List.mem_singleton.1 hs with rfl
        rcases List.mem_singleton.1 hc with rfl
        simp
      · rcases List.mem_cons.1 hs with rfl | h2
        · rcases List.mem_cons.1 hc with rfl | h4
          · simp
          · exact List.mem_cons_of_mem _ (ih h0 (hsp ▸ List.mem_cons_self _ _) h4)
        · exact List.mem_cons_of_mem _
            (ih s (hsp ▸ List.mem_cons_of_mem _ h2) hc)

theorem mem_of_mem_dropLast {α : Type} {a : α} {l : List α}
    (h : a ∈ l.dropLast) : a ∈ l := by
  rw [List.dropLast_eq_take] at h
  exact List.take_subset _ _ h

theorem splitLines_line_facts {input s : List Char} (hs : s ∈ splitLines input) :
    '\n' ∉ s ∧ ∀ c ∈ s, c ∈ replaceCRLF input := by
  unfold splitLines at hs
  split at hs <;>
  · first
    | (have hs2 := mem_of_mem_dropLast hs
       exact ⟨not_nl_mem_splitOnNl _ _ hs2, fun c hc => mem_of_mem_splitOnNl _ _ hs2 hc⟩)
    | exact ⟨not_nl_mem_splitOnNl _ _ hs, fun c hc => mem_of_mem_splitOnNl _ _ hs hc⟩

theorem mem_of_mem_joinNl {c : Char} : ∀ ls : List (List Char),
    c ∈ joinNl ls → c = '\n' ∨ ∃ l ∈ ls, c ∈ l := by
  intro ls
  induction ls with
  | nil => intro h; simp [joinNl] at h
  | cons l tl ih =>
    intro h
    rcases tl with _ | ⟨l2, tl2⟩
    · exact Or.inr ⟨l, List.mem_singleton.2 rfl, by simpa [joinNl] using h⟩
    · have hj : joinNl (l :: l2 :: tl2) = l ++ '\n' :: joinNl (l2 :: tl2) := rfl
      rw [hj] at h
      rcases List.mem_append.1 h with h1 | h2
      · exact Or.inr ⟨l, List.mem_cons_self _ _, h1⟩
      · rcases List.mem_cons.1 h2 with rfl | h3
        · exact Or.inl rfl
        · rcases ih h3 with h4 | ⟨l3, hl3, hcl3⟩
          · exact Or.inl h4
          · exact Or.inr ⟨l3, List.mem_cons_of_mem _ hl3, hcl3⟩

theorem mem_of_mem_joinLines {c : Char} {ls : List (List Char)}
    (h : c ∈ joinLines ls) : c = '\n' ∨ ∃ l ∈ ls, c ∈ l := by
  unfold joinLines at h
  split at h
  · exact mem_of_mem_joinNl ls h
  · rcases List.mem_append.1 h with h1 | h2
    · exact mem_of_mem_joinNl ls h1
    · exact Or.inl (List.mem_singleton.1 h2)

theorem joinLines_getLast (ls : List (List Char)) :
    (joinLines ls).getLast? = some '\n' := by
  unfold joinLines
  split
  · assumption
  · exact List.getLast?_concat _

/-! ### Claim C10: line separators of rewritten files -/

theorem digitChar_mem_digits (n : Nat) : digitChar n ∈ chars "0123456789" := by
  unfold digitChar
  split <;> decide

theorem mem_of_mem_tagsFmt {c : Char} : ∀ ts : List (List Char),
    c ∈ tagsFmt ts → c = ' ' ∨ c = '#' ∨ ∃ t ∈ ts, c ∈ t := by
  intro ts
  induction ts with
  | nil => intro h; simp [tagsFmt] at h
  | cons t ts ih =>
    intro h
    rw [tagsFmt] at h
    rcases List.mem_cons.1 h with rfl | h2
    · exact Or.inl rfl
    rcases List.mem_cons.1 h2 with rfl | h3
    · exact Or.inr (Or.inl rfl)
    rcases List.mem_append.1 h3 with h4 | h5
    · exact Or.inr (Or.inr ⟨t, List.mem_cons_self _ _, h4⟩)
    rcases ih h5 with h6 | h6 | ⟨t2, ht2, hct2⟩
    · exact Or.inl h6
    · exact Or.inr (Or.inl h6)
    · exact Or.inr (Or.inr ⟨t2, List.mem_cons_of_mem _ ht2, hct2⟩)

/-- Characters of a formatted entry line: fixed punctuation, the status
character, digits, text characters and tag characters. -/
theorem mem_of_mem_formatEntry {c : Char} {e : Entry}
    (h : c ∈ formatEntry e) :
    c ∈ chars "- [x]:#0123456789" ∨ c ∈ e.text ∨ ∃ t ∈ e.tags, c ∈ t := by
  unfold formatEntry at h
  have hdig : ∀ n : Nat, digitChar n ∈ chars "- [x]:#0123456789" := by
    intro n
    unfold digitChar
    split <;> decide
  have hstat : statusChar e.status ∈ chars "- [x]:#0123456789" := by
    cases e.status <;> decide
  rcases List.mem_cons.1 h with rfl | h; · left; decide
  rcases List.mem_cons.1 h with rfl | h; · left; decide
  rcases List.mem_cons.1 h with rfl | h; · left; decide
  rcases List.mem_cons.1 h with rfl | h; · exact Or.inl hstat
  rcases List.mem_cons.1 h with rfl | h; · left; decide
  rcases List.mem_cons.1 h with rfl | h; · left; decide
  rcases List.mem_cons.1 h with rfl | h; · left; decide
  rcases List.mem_cons.1 h with rfl | h; · exact Or.inl (hdig _)
  rcases List.mem_cons.1 h with rfl | h; · exact Or.inl (hdig _)
  rcases List.mem_cons.1 h with rfl | h; · left; decide
  rcases List.mem_cons.1 h with rfl | h; · exact Or.inl (hdig _)
  rcases List.mem_cons.1 h with rfl | h; · exact Or.inl (hdig _)
  rcases List.mem_cons.1 h with rfl | h; · left; decide
  rcases List.mem_append.1 h with h1 | h2
  · split at h1
    · simp at h1
    · rcases List.mem_cons.1 h1 with rfl | h3
      · left; decide
      · exact Or.inr (Or.inl h3)
  · rcases mem_of_mem_tagsFmt _ h2 with rfl | rfl | ⟨t, ht, hct⟩
    · left; decide
    · left; decide
    · exact Or.inr (Or.inr ⟨t, ht, hct⟩)

theorem mem_of_mem_dateHeading {c : Char} {d : Date}
    (h : c ∈ dateHeading d) : c ∈ chars "# -0123456789" := by
  have hdig : ∀ n : Nat, digitChar n ∈ chars "# -0123456789" := by
    intro n
    unfold digitChar
    split <;> decide
  unfold dateHeading pad4 pad2 at h
  rcases List.mem_cons.1 h with rfl | h; · decide
  rcases List.mem_cons.1 h with rfl | h; · decide
  rcases List.mem_cons.1 h with rfl | h; · decide
  rcases List.mem_append.1 h with h1 | h1
  · rcases List.mem_cons.1 h1 with rfl | h1; · exact hdig _
    rcases List.mem_cons.1 h1 with rfl | h1; · exact hdig _
    rcases List.mem_cons.1 h1 with rfl | h1; · exact hdig _
    rcases List.mem_cons.1 h1 with rfl | h1; · exact hdig _
    simp at h1
  rcases List.mem_cons.1 h1 with rfl | h1; · decide
  rcases List.mem_append.1 h1 with h2 | h2
  · rcases List.mem_cons.1 h2 with rfl | h2; · exact hdig _
    rcases List.mem_cons.1 h2 with rfl | h2; · exact hdig _
    simp at h2
  rcases List.mem_cons.1 h2 with rfl | h2; · decide
  rcases List.mem_cons.1 h2 with rfl | h2; · exact hdig _
  rcases List.mem_cons.1 h2 with rfl | h2; · exact hdig _
  simp at h2

theorem formatEntry_no_cr {e : Entry} (ht : '\r' ∉ e.text)
    (htg : ∀ t ∈ e.tags, '\r' ∉ t) : '\r' ∉ formatEntry e := by
  intro h
  rcases mem_of_mem_formatEntry h with hf | hf | ⟨t, ht2, hc⟩
  · revert hf
    decide
  · exact ht hf
  · exact htg t ht2 hc

theorem dateHeading_no_cr (d : Date) : '\r' ∉ dateHeading d := by
  intro h
  have := mem_of_mem_dateHeading h
  revert this
  decide

theorem joinLines_no_cr {ls : List (List Char)}
    (h : ∀ l ∈ ls, '\r' ∉ l) : '\r' ∉ joinLines ls := by
  intro hm
  rcases mem_of_mem_joinLines hm with h1 | ⟨l, hl, hc⟩
  · exact absurd h1 (by decide)
  · exact h l hl hc

theorem insertLine_mem {lines : List (List Char)} {n : Nat} {x l : List Char}
    (h : l ∈ insertLine lines n x) : l ∈ lines ∨ l = x := by
  unfold insertLine at h
  split at h
  · rcases List.mem_append.1 h with h1 | h1
    · exact Or.inl h1
    · exact Or.inr (List.mem_singleton.1 h1)
  · rcases List.mem_append.1 h with h1 | h1
    · exact Or.inl (List.take_subset _ _ h1)
    · rcases List.mem_cons.1 h1 with rfl | h2
      · exact Or.inr rfl
      · exact Or.inl (List.drop_subset _ _ h2)

/-- A parsed entry of a located section has carriage-return-free text and
tags whenever the file lines are carriage-return-free. -/
theorem locateSection_entry_no_cr {d : Date} {lines : List (List Char)}
    {st : SectionState} (hst : locateSection d lines = some st)
    (hlines : ∀ l ∈ lines, '\r' ∉ l) {e : Entry}
    (he : e ∈ st.section_.entries) :
    '\r' ∉ e.text ∧ ∀ t ∈ e.tags, '\r' ∉ t := by
  rcases locateSection_entry_parsed hst he with ⟨l, hl, hp⟩
  constructor
  · intro hc
    exact hlines l hl ((mem_of_mem_parse hp).1 hc |> mem_of_mem_trim)
  · intro t ht hc
    exact hlines l hl ((mem_of_mem_parse hp).2 t ht hc |> mem_of_mem_trim)

/-- C10 (amended): after a successful writer operation the rewritten file
always ends with a newline, and it contains no carriage return — hence
uses only LF separators — provided every CR of the prior content is part
of a CRLF pair (those pairs are normalised away when the file is split)
and, for `Append`/`Edit`, the caller-supplied entry is CR-free. -/
theorem C10_lf_only_amended (d : Date) (content : List Char) (i : Int)
    (e u : Entry)
    (hclean : '\r' ∉ replaceCRLF content)
    (he1 : '\r' ∉ e.text) (he2 : ∀ t ∈ e.tags, '\r' ∉ t)
    (hu1 : '\r' ∉ u.text) (hu2 : ∀ t ∈ u.tags, '\r' ∉ t) :
    ('\r' ∉ appendOp d e content ∧
      (appendOp d e content).getLast? = some '\n') ∧
    (∀ r, (toggleOp d i content).1 = .ok r →
      '\r' ∉ (toggleOp d i content).2 ∧
        ((toggleOp d i content).2).getLast? = some '\n') ∧
    ((editOp d i u content).1 = .ok () →
      '\r' ∉ (editOp d i u content).2 ∧
        ((editOp d i u content).2).getLast? = some '\n') ∧
    (∀ r, (deleteOp d i content).1 = .ok r →
      '\r' ∉ (deleteOp d i content).2 ∧
        ((deleteOp d i content).2).getLast? = some '\n') := by
  have hlines : ∀ l ∈ splitLines content, '\r' ∉ l := fun l hl hc =>
    hclean ((splitLines_line_facts hl).2 _ hc)
  have hfmt_e : '\r' ∉ formatEntry e := formatEntry_no_cr he1 he2
  have hfmt_u : '\r' ∉ formatEntry u := formatEntry_no_cr hu1 hu2
  refine ⟨?_, ?_, ?_, ?_⟩
  · rcases hst : locateSection d (splitLines content) with _ | st
    · simp only [appendOp, loadSection, hst]
      refine ⟨joinLines_no_cr ?_, joinLines_getLast _⟩
      intro l hl
      rcases List.mem_append.1 hl with h1 | h1
      · split at h1
        · rcases List.mem_append.1 h1 with h2 | h2
          · exact hlines l h2
          · rcases List.mem_singleton.1 h2 with rfl
            simp
        · exact hlines l h1
      · rcases List.mem_cons.1 h1 with rfl | h2
        · exact dateHeading_no_cr d
        · rcases List.mem_singleton.1 h2 with rfl
          exact hfmt_e
    · simp only [appendOp, loadSection, hst]
      refine ⟨joinLines_no_cr ?_, joinLines_getLast _⟩
      intro l hl
      rcases insertLine_mem hl with h1 | rfl
      · exact hlines l h1
      · exact hfmt_e
  · intro r hr
    rcases hst : locateSection d (splitLines content) with _ | st <;>
      simp only [toggleOp, loadSection, hst] at hr ⊢
    · cases hr
    · by_cases hio : (i < 1 ∨ i > (st.entryIndexes.length : Int))
      · rw [if_pos hio] at hr
        cases hr
      · rw [if_neg hio] at hr ⊢
        have hlen := locateSection_entries_length d _ st hst
        have hmem : st.section_.entries.getD (i.toNat - 1) default ∈
            st.section_.entries := by
          have hb : i.toNat - 1 < st.section_.entries.length := by omega
          rw [List.getD_eq_getElem _ _ hb]
          exact List.getElem_mem hb
        obtain ⟨hec1, hec2⟩ := locateSection_entry_no_cr hst hlines hmem
        refine ⟨joinLines_no_cr ?_, joinLines_getLast _⟩
        intro l hl
        rcases List.mem_or_eq_of_mem_set hl with h1 | rfl
        · exact hlines l h1
        · exact formatEntry_no_cr hec1 hec2
  · intro hr
    rcases hst : locateSection d (splitLines content) with _ | st <;>
      simp only [editOp, loadSection, hst] at hr ⊢
    · cases hr
    · by_cases hio : (i < 1 ∨ i > (st.entryIndexes.length : Int))
      · rw [if_pos hio] at hr
        cases hr
      · rw [if_neg hio]
        refine ⟨joinLines_no_cr ?_, joinLines_getLast _⟩
        intro l hl
        rcases List.mem_or_eq_of_mem_set hl with h1 | rfl
        · exact hlines l h1
        · exact hfmt_u
  · intro r hr
    rcases hst : locateSection d (splitLines content) with _ | st <;>
      simp only [deleteOp, loadSection, hst] at hr ⊢
    · cases hr
    · by_cases hio : (i < 1 ∨ i > (st.entryIndexes.length : Int))
      · rw [if_pos hio] at hr
        cases hr
      · rw [if_neg hio]
        refine ⟨joinLines_no_cr ?_, joinLines_getLast _⟩
        intro l hl
        rcases List.mem_append.1 hl with h1 | h1
        · exact hlines l (List.take_subset _ _ h1)
        · exact hlines l (List.drop_subset _ _ h1)

theorem C10_lf_only_amended_witness :
    '\r' ∉ appendOp ⟨2025, 11, 5⟩ ⟨.todo, 8, 5, chars "hi", []⟩ wFile ∧
    (appendOp ⟨2025, 11, 5⟩ ⟨.todo, 8, 5, chars "hi", []⟩ wFile).getLast? =
      some '\n' := by
  have h := C10_lf_only_amended ⟨2025, 11, 5⟩ wFile 1
    ⟨.todo, 8, 5, chars "hi", []⟩ ⟨.todo, 0, 0, [], []⟩ (by decide)
    (by decide) (by intro t ht; simp at ht) (by decide)
    (by intro t ht; simp at ht)
  exact h.1

/-- Whether the byte pair CR LF occurs anywhere. -/
def containsCRLF : List Char → Bool
  | [] => false
  | [_] => false
  | c :: d :: tl => (c = '\r' ∧ d = '\n') ∨ containsCRLF (d :: tl)

/-- C10 counterexample: on a prior file content `"x\r\r\n"` — which does
contain a CRLF pair — a successful `Append` writes a file that still
contains a CRLF byte pair, so the rewritten file does not use only LF
separators and the prior CRLF pairs are not all normalised away. -/
theorem C10_cex_crlf_survives :
    containsCRLF (chars "x\r\r\n") = true ∧
    containsCRLF
      (appendOp ⟨2025, 11, 4⟩ ⟨.todo, 8, 5, chars "hi", []⟩
        (chars "x\r\r\n")) = true := by
  exact ⟨rfl, rfl⟩

/-! ### Claim C6: dated section heading recognition -/

theorem charEq_of_toNat {a b : Char} (h : a.toNat = b.toNat) : a = b := by
  rw [← Char.ofNat_toNat a, ← Char.ofNat_toNat b, h]

theorem digitChar_toNat {k : Nat} (hk : k < 10) :
    (digitChar k).toNat = 48 + k := by
  interval_cases k <;> decide

theorem isDigitC_digitChar (k : Nat) : isDigitC (digitChar k) = true := by
  unfold digitChar
  split <;> decide

theorem digitChar_ne_space (k : Nat) : digitChar k ≠ ' ' := by
  unfold digitChar
  split <;> decide

theorem digitVal_lt_ten {c : Char} (h : isDigitC c = true) : digitVal c < 10 := by
  unfold isDigitC at h
  simp only [decide_eq_true_eq] at h
  unfold digitVal
  omega

theorem digitVal_digitChar {k : Nat} (hk : k < 10) :
    digitVal (digitChar k) = k := by
  unfold digitVal
  rw [digitChar_toNat hk]
  omega

theorem digitChar_digitVal {c : Char} (h : isDigitC c = true) :
    digitChar (digitVal c) = c := by
  unfold isDigitC at h
  simp only [decide_eq_true_eq] at h
  apply charEq_of_toNat
  rw [digitChar_toNat (by unfold digitVal; omega)]
  unfold digitVal
  omega

theorem daysInMonth_le (y m : Nat) : daysInMonth y m ≤ 31 := by
  unfold daysInMonth
  split
  · split <;> omega
  · split <;> omega

/-- Go `time.Parse("2006-01-02", s)` succeeds exactly on the zero-padded
rendering of a valid calendar date. -/
theorem parseISODate_iff (s : List Char) (dt : Date) :
    parseISODate s = some dt ↔
      (s = pad4 dt.year ++ '-' :: pad2 dt.month ++ '-' :: pad2 dt.day ∧
       dt.year ≤ 9999 ∧ 1 ≤ dt.month ∧ dt.month ≤ 12 ∧
       1 ≤ dt.day ∧ dt.day ≤ daysInMonth dt.year dt.month) := by
  constructor
  · intro h
    unfold parseISODate at h
    split at h
    · rename_i y1 y2 y3 y4 s1 m1 m2 s2 d1 d2
      split at h
      · rename_i hdig
        obtain ⟨hs1, hs2, hy1, hy2, hy3, hy4, hm1, hm2, hd1, hd2⟩ := hdig
        split at h
        · rename_i hrange
          simp only [Option.some.injEq] at h
          subst h
          subst hs1
          subst hs2
          have v1 := digitVal_lt_ten hy1
          have v2 := digitVal_lt_ten hy2
          have v3 := digitVal_lt_ten hy3
          have v4 := digitVal_lt_ten hy4
          have v5 := digitVal_lt_ten hm1
          have v6 := digitVal_lt_ten hm2
          have v7 := digitVal_lt_ten hd1
          have v8 := digitVal_lt_ten hd2
          refine ⟨?_, by simp only; omega, by simp only; omega,
            by simp only; omega, by simp only; omega,
            by simp only; exact hrange.2.2.2⟩
          simp only [pad4, pad2]
          have e1 : (((digitVal y1 * 10 + digitVal y2) * 10 + digitVal y3) * 10 +
              digitVal y4) / 1000 % 10 = digitVal y1 := by omega
          have e2 : (((digitVal y1 * 10 + digitVal y2) * 10 + digitVal y3) * 10 +
              digitVal y4) / 100 % 10 = digitVal y2 := by omega
          have e3 : (((digitVal y1 * 10 + digitVal y2) * 10 + digitVal y3) * 10 +
              digitVal y4) / 10 % 10 = digitVal y3 := by omega
          have e4 : (((digitVal y1 * 10 + digitVal y2) * 10 + digitVal y3) * 10 +
              digitVal y4) % 10 = digitVal y4 := by omega
          have e5 : (digitVal m1 * 10 + digitVal m2) / 10 % 10 = digitVal m1 := by
            omega
          have e6 : (digitVal m1 * 10 + digitVal m2) % 10 = digitVal m2 := by omega
          have e7 : (digitVal d1 * 10 + digitVal d2) / 10 % 10 = digitVal d1 := by
            omega
          have e8 : (digitVal d1 * 10 + digitVal d2) % 10 = digitVal d2 := by omega
          rw [e1, e2, e3, e4, e5, e6, e7, e8,
            digitChar_digitVal hy1, digitChar_digitVal hy2,
            digitChar_digitVal hy3, digitChar_digitVal hy4,
            digitChar_digitVal hm1, digitChar_digitVal hm2,
            digitChar_digitVal hd1, digitChar_digitVal hd2]
          rfl
        · cases h
      · cases h
    · cases h
  · rintro ⟨hs, hy, hm1, hm2, hd1, hd2⟩
    subst hs
    simp only [pad4, pad2, List.cons_append, List.nil_append]
    have hv : ∀ k, digitVal (digitChar (k % 10)) = k % 10 := fun k =>
      digitVal_digitChar (Nat.mod_lt _ (by omega))
    show (if ('-' : Char) = '-' ∧ ('-' : Char) = '-' ∧
        isDigitC (digitChar (dt.year / 1000 % 10)) ∧
        isDigitC (digitChar (dt.year / 100 % 10)) ∧
        isDigitC (digitChar (dt.year / 10 % 10)) ∧
        isDigitC (digitChar (dt.year % 10)) ∧
        isDigitC (digitChar (dt.month / 10 % 10)) ∧
        isDigitC (digitChar (dt.month % 10)) ∧
        isDigitC (digitChar (dt.day / 10 % 10)) ∧
        isDigitC (digitChar (dt.day % 10)) then _ else none) = some dt
    rw [if_pos ⟨rfl, rfl, isDigitC_digitChar _, isDigitC_digitChar _,
      isDigitC_digitChar _, isDigitC_digitChar _, isDigitC_digitChar _,
      isDigitC_digitChar _, isDigitC_digitChar _, isDigitC_digitChar _⟩]
    rw [hv dt.month, hv (dt.month / 10), hv dt.day, hv (dt.day / 10),
      hv dt.year, hv (dt.year / 10), hv (dt.year / 100), hv (dt.year / 1000)]
    have hdmax := daysInMonth_le dt.year dt.month
    have hyy : ((dt.year / 1000 % 10 * 10 + dt.year / 100 % 10) * 10 +
        dt.year / 10 % 10) * 10 + dt.year % 10 = dt.year := by omega
    have hmm : dt.month / 10 % 10 * 10 + dt.month % 10 = dt.month := by omega
    have hdd : dt.day / 10 % 10 * 10 + dt.day % 10 = dt.day := by omega
    rw [hyy, hmm, hdd]
    rw [if_pos ⟨hm1, hm2, hd1, hd2⟩]

/-- C6 counterexample: the line `"##  2025-11-04"` (two spaces) is
recognised by the tokenizer as the heading of 2025-11-04, yet it does not
match the claimed exact pattern two hashes, one space, then the ISO date. -/
theorem C6_cex_loose_heading :
    headingOf (chars "##  2025-11-04") = some ⟨2025, 11, 4⟩ ∧
    ∀ dt : Date, chars "##  2025-11-04" ≠
      '#' :: '#' :: ' ' ::
        (pad4 dt.year ++ '-' :: pad2 dt.month ++ '-' :: pad2 dt.day) := by
  constructor
  · rfl
  · intro dt h
    simp only [pad4, chars, List.cons_append] at h
    injection h with h1 h
    injection h with h2 h
    injection h with h3 h
    injection h with h4 h
    exact digitChar_ne_space _ h4.symm

/-- C6 (amended): a line is recognised by the tokenizer as a dated
section heading iff, after trimming surrounding white space, it starts
with two hashes and one space and the remainder, again trimmed of
surrounding white space, is exactly the zero-padded four-digit-year,
two-digit-month, two-digit-day rendering of a valid calendar date. -/
theorem C6_heading_recognition_amended (line : List Char) (dt : Date) :
    headingOf line = some dt ↔
      (hasPrefix (chars "## ") (trim line) = true ∧
       trim ((trim line).drop 3) =
         pad4 dt.year ++ '-' :: pad2 dt.month ++ '-' :: pad2 dt.day ∧
       dt.year ≤ 9999 ∧ 1 ≤ dt.month ∧ dt.month ≤ 12 ∧
       1 ≤ dt.day ∧ dt.day ≤ daysInMonth dt.year dt.month) := by
  unfold headingOf parseSectionHeading
  by_cases hp : hasPrefix (chars "## ") (trim line) = true
  · rw [if_pos hp]
    rw [parseISODate_iff]
    constructor
    · rintro ⟨h1, h2⟩
      exact ⟨hp, h1, h2⟩
    · rintro ⟨-, h1, h2⟩
      exact ⟨h1, h2⟩
  · rw [if_neg hp]
    constructor
    · intro h
      cases h
    · rintro ⟨h1, -⟩
      exact absurd h1 hp

theorem C6_heading_recognition_amended_witness :
    headingOf (chars " ## 2025-11-04  ") = some ⟨2025, 11, 4⟩ := by
  rw [C6_heading_recognition_amended (chars " ## 2025-11-04  ") ⟨2025, 11, 4⟩]
  refine ⟨by decide, by decide, by decide, by decide, by decide, by decide,
    by decide⟩

/-! ### Trim, white-space and field lemmas for the round-trip proofs -/

theorem head?_dropWhile_not (p : Char → Bool) :
    ∀ (l : List Char) (c : Char), (l.dropWhile p).head? = some c → p c = false := by
  intro l
  induction l with
  | nil => intro c h; simp [List.dropWhile] at h
  | cons a tl ih =>
    intro c h
    rw [List.dropWhile_cons] at h
    split at h
    · exact ih c h
    · rename_i hpa
      rw [List.head?_cons, Option.some.injEq] at h
      subst h
      simpa using hpa

theorem getLast?_dropWhile (p : Char → Bool) :
    ∀ l : List Char, l.dropWhile p ≠ [] → (l.dropWhile p).getLast? = l.getLast? := by
  intro l
  induction l with
  | nil => intro h; simp [List.dropWhile] at h
  | cons a tl ih =>
    intro h
    rw [List.dropWhile_cons] at h ⊢
    split
    · rename_i hpa
      rw [if_pos hpa] at h
      have htl : tl ≠ [] := by
        intro he
        subst he
        simp [List.dropWhile] at h
      rw [ih h, List.getLast?_cons]
      rcases tl with _ | ⟨b, tl2⟩
      · simp at htl
      · rcases hlast : (b :: tl2).getLast? with _ | cc
        · simp at hlast
        · simp [hlast]
    · rfl

theorem trim_head_not_space {l : List Char} {c : Char}
    (h : (trim l).head? = some c) : isGoSpace c = false := by
  unfold trim at h
  rcases hX : (l.dropWhile isGoSpace).reverse.dropWhile isGoSpace with _ | ⟨a, X⟩
  · rw [hX] at h
    simp at h
  · rw [hX] at h
    rw [List.head?_reverse] at h
    have hne : (l.dropWhile isGoSpace).reverse.dropWhile isGoSpace ≠ [] := by
      rw [hX]; simp
    rw [← hX, getLast?_dropWhile _ _ hne, List.getLast?_reverse] at h
    exact head?_dropWhile_not _ _ _ h

theorem trim_getLast_not_space {l : List Char} {c : Char}
    (h : (trim l).getLast? = some c) : isGoSpace c = false := by
  unfold trim at h
  rw [List.getLast?_reverse] at h
  exact head?_dropWhile_not _ _ _ h

theorem dropWhile_eq_self_of_head {p : Char → Bool} {l : List Char}
    (h : ∀ c, l.head? = some c → p c = false) : l.dropWhile p = l := by
  rcases l with _ | ⟨a, tl⟩
  · rfl
  · rw [List.dropWhile_cons, if_neg]
    simp [h a rfl]

theorem trim_eq_self_of {l : List Char}
    (hh : ∀ c, l.head? = some c → isGoSpace c = false)
    (hl : ∀ c, l.getLast? = some c → isGoSpace c = false) : trim l = l := by
  unfold trim
  rw [dropWhile_eq_self_of_head hh]
  rw [dropWhile_eq_self_of_head (by
    intro c hc
    rw [List.head?_reverse] at hc
    exact hl c hc)]
  exact List.reverse_reverse l

theorem idxSpaceHash_none_of_no_space {l : List Char}
    (h : ∀ c ∈ l, c ≠ ' ') : idxSpaceHash l = none := by
  induction l with
  | nil => rfl
  | cons a tl ih =>
    rw [idxSpaceHash, if_neg, ih (fun c hc => h c (List.mem_cons_of_mem _ hc))]
    · rfl
    · rintro ⟨ha, -⟩
      exact h a (List.mem_cons_self _ _) ha

theorem idxSpaceHash_boundary :
    ∀ (text rest2 : List Char), idxSpaceHash text = none →
      idxSpaceHash (text ++ ' ' :: '#' :: rest2) = some text.length := by
  intro text
  induction text with
  | nil =>
    intro rest2 h
    rw [List.nil_append, idxSpaceHash, if_pos ⟨rfl, rfl⟩]
    rfl
  | cons a tl ih =>
    intro rest2 h
    rw [idxSpaceHash] at h
    split at h
    · cases h
    · rename_i hcond
      rw [Option.map_eq_none'] at h
      rw [List.cons_append, idxSpaceHash, if_neg, ih rest2 h]
      · rfl
      · rintro ⟨ha, hhd⟩
        rcases tl with _ | ⟨b, tl2⟩
        · rw [List.nil_append, List.head?_cons, Option.some.injEq] at hhd
          cases hhd
        · rw [List.cons_append, List.head?_cons] at hhd
          exact hcond ⟨ha, by simpa using hhd⟩

theorem drop_append_cons {α : Type} :
    ∀ (w : List α) (a : α) (x : List α), (w ++ a :: x).drop (w.length + 1) = x := by
  intro w
  induction w with
  | nil => intro a x; rfl
  | cons b w2 ih => intro a x; simp only [List.cons_append, List.length_cons]; exact ih a x

theorem fieldsAux_word :
    ∀ (w l acc : List Char), (∀ c ∈ w, isGoSpace c = false) →
      fieldsAux (w ++ l) acc = fieldsAux l (w.reverse ++ acc) := by
  intro w
  induction w with
  | nil => intro l acc h; simp
  | cons a w2 ih =>
    intro l acc h
    rw [List.cons_append, fieldsAux, if_neg (by
      simp [h a (List.mem_cons_self _ _)])]
    rw [ih l (a :: acc) (fun c hc => h c (List.mem_cons_of_mem _ hc))]
    simp

theorem fields_word_space {w rest : List Char} (hw : w ≠ [])
    (hns : ∀ c ∈ w, isGoSpace c = false) :
    fields (w ++ ' ' :: rest) = w :: fields rest := by
  unfold fields
  rw [fieldsAux_word w (' ' :: rest) [] hns]
  rw [fieldsAux, if_pos (by decide), if_neg (by simp [hw])]
  simp

theorem fields_word {w : List Char} (hw : w ≠ [])
    (hns : ∀ c ∈ w, isGoSpace c = false) : fields w = [w] := by
  unfold fields
  have := fieldsAux_word w [] [] hns
  rw [List.append_nil] at this
  rw [this, fieldsAux, if_neg (by simp [hw])]
  simp

theorem dropWhile_hash_of_head {t : List Char} (h : t.head? ≠ some '#') :
    t.dropWhile (· = '#') = t := by
  rcases t with _ | ⟨a, tl⟩
  · rfl
  · rw [List.dropWhile_cons, if_neg]
    simp only [List.head?_cons, ne_eq, Option.some.injEq] at h
    simp [h]

/-- Well-formed tags: non-empty, not starting with a hash, no white space. -/
def wfTag (t : List Char) : Prop :=
  t ≠ [] ∧ t.head? ≠ some '#' ∧ ∀ c ∈ t, isGoSpace c = false

/-- Parsing back the tag segment written by the formatter recovers the
tags exactly. -/
theorem parseTags_tagsFmt :
    ∀ (ts : List (List Char)) (t0 : List Char), (∀ t ∈ t0 :: ts, wfTag t) →
      parseTags ('#' :: (t0 ++ tagsFmt ts)) = t0 :: ts := by
  intro ts
  induction ts with
  | nil =>
    intro t0 hwf
    obtain ⟨ht1, ht2, ht3⟩ := hwf t0 (List.mem_cons_self _ _)
    have hword : ∀ c ∈ '#' :: t0, isGoSpace c = false := by
      intro c hc
      rcases List.mem_cons.1 hc with rfl | hc2
      · decide
      · exact ht3 c hc2
    have hlen : 1 < ('#' :: t0).length := by
      have := List.length_pos.2 ht1
      simp only [List.length_cons]
      omega
    have hdw : ('#' :: t0).dropWhile (· = '#') = t0 := by
      rw [List.dropWhile_cons, if_pos (by decide)]
      exact dropWhile_hash_of_head ht2
    simp only [tagsFmt, List.append_nil]
    unfold parseTags
    rw [fields_word (by simp) hword, List.filterMap_cons, List.filterMap_nil]
    rw [if_pos ⟨by simp, hlen⟩, hdw, if_pos ht1]
  | cons t2 ts3 ih =>
    intro t0 hwf
    obtain ⟨ht1, ht2, ht3⟩ := hwf t0 (List.mem_cons_self _ _)
    have hword : ∀ c ∈ '#' :: t0, isGoSpace c = false := by
      intro c hc
      rcases List.mem_cons.1 hc with rfl | hc2
      · decide
      · exact ht3 c hc2
    have hlen : 1 < ('#' :: t0).length := by
      have := List.length_pos.2 ht1
      simp only [List.length_cons]
      omega
    have hdw : ('#' :: t0).dropWhile (· = '#') = t0 := by
      rw [List.dropWhile_cons, if_pos (by decide)]
      exact dropWhile_hash_of_head ht2
    have hassoc : '#' :: (t0 ++ tagsFmt (t2 :: ts3)) =
        ('#' :: t0) ++ ' ' :: ('#' :: (t2 ++ tagsFmt ts3)) := by
      simp [tagsFmt]
    rw [hassoc]
    have hrec := ih t2 (fun t3 h3 => hwf t3 (List.mem_cons_of_mem _ h3))
    unfold parseTags at hrec ⊢
    rw [fields_word_space (by simp) hword, List.filterMap_cons]
    rw [if_pos ⟨by simp, hlen⟩, hdw, if_pos ht1, hrec]

theorem mem_of_getLast? {α : Type} {l : List α} {a : α}
    (h : l.getLast? = some a) : a ∈ l := by
  rcases List.mem_getLast?_eq_getLast (show a ∈ l.getLast? from h) with ⟨hne, rfl⟩
  exact List.getLast_mem hne

theorem getLast?_append_right {l1 l2 : List Char} {c : Char}
    (h : l2.getLast? = some c) : (l1 ++ l2).getLast? = some c := by
  rw [List.getLast?_append, h]
  rfl

theorem tagsFmt_ne_nil (t0 : List Char) (ts : List (List Char)) :
    tagsFmt (t0 :: ts) ≠ [] := by
  rw [tagsFmt]
  simp

theorem tagsFmt_getLast_not_space :
    ∀ ts : List (List Char), (∀ t ∈ ts, wfTag t) →
      ∀ c : Char, (tagsFmt ts).getLast? = some c → isGoSpace c = false := by
  intro ts
  induction ts with
  | nil => intro _ c h; simp [tagsFmt] at h
  | cons t ts2 ih =>
    intro hwf c h
    obtain ⟨ht1, -, ht3⟩ := hwf t (List.mem_cons_self _ _)
    rw [show tagsFmt (t :: ts2) = [' ', '#'] ++ (t ++ tagsFmt ts2) from rfl,
      List.getLast?_append, List.getLast?_append] at h
    rcases ts2 with _ | ⟨t2, ts3⟩
    · rcases hlt : t.getLast? with _ | c2
      · rw [List.getLast?_eq_none_iff] at hlt
        exact absurd hlt ht1
      · rw [hlt] at h
        have hcc := Option.some.inj (show some c2 = some c from h)
        subst hcc
        exact ht3 _ (mem_of_getLast? hlt)
    · rcases hlt2 : (tagsFmt (t2 :: ts3)).getLast? with _ | c3
      · rw [List.getLast?_eq_none_iff] at hlt2
        exact absurd hlt2 (tagsFmt_ne_nil t2 ts3)
      · rw [hlt2] at h
        have hcc := Option.some.inj (show some c3 = some c from h)
        subst hcc
        exact ih (fun t3 h3 => hwf t3 (List.mem_cons_of_mem _ h3)) _ hlt2

theorem no_space_tag_chars {t : List Char} (h : ∀ c ∈ t, isGoSpace c = false) :
    ∀ c ∈ t, c ≠ ' ' := by
  intro c hc he
  subst he
  exact absurd (h ' ' hc) (by decide)

/-- Splitting the formatter output when the text part is nonempty. -/
theorem extract_format_text {text : List Char} {ts : List (List Char)}
    (htx : trim text = text) (hne : text ≠ [])
    (hsh : idxSpaceHash text = none)
    (hwf : ∀ t ∈ ts, wfTag t)
    (hhash : text.head? = some '#' → ts ≠ []) :
    extractTextAndTags (text ++ tagsFmt ts) = (text, ts) := by
  cases ts with
  | nil =>
    rw [show tagsFmt [] = [] from rfl, List.append_nil]
    unfold extractTextAndTags
    rw [htx]
    unfold extractCore
    rw [if_neg hne, hsh]
    rw [if_neg (fun hh => absurd rfl (hhash hh))]
  | cons t ts2 =>
    have hhead : ∀ c, (text ++ tagsFmt (t :: ts2)).head? = some c →
        isGoSpace c = false := by
      intro c hc
      rcases text with _ | ⟨a, text2⟩
      · exact absurd rfl hne
      · rw [List.cons_append, List.head?_cons, Option.some.injEq] at hc
        subst hc
        exact trim_head_not_space (by rw [htx]; rfl)
    have hlast : ∀ c, (text ++ tagsFmt (t :: ts2)).getLast? = some c →
        isGoSpace c = false := by
      intro c hc
      rcases hlt : (tagsFmt (t :: ts2)).getLast? with _ | c2
      · rw [List.getLast?_eq_none_iff] at hlt
        exact absurd hlt (tagsFmt_ne_nil t ts2)
      · rw [getLast?_append_right hlt, Option.some.injEq] at hc
        subst hc
        exact tagsFmt_getLast_not_space _ hwf c2 hlt
    unfold extractTextAndTags
    rw [trim_eq_self_of hhead hlast]
    unfold extractCore
    rw [if_neg (by simp [hne])]
    rw [show text ++ tagsFmt (t :: ts2) =
      text ++ ' ' :: '#' :: (t ++ tagsFmt ts2) from rfl]
    rw [idxSpaceHash_boundary text _ hsh]
    show (trim ((text ++ (' ' :: '#' :: (t ++ tagsFmt ts2))).take text.length),
      parseTags ((text ++ ' ' :: '#' :: (t ++ tagsFmt ts2)).drop
        (text.length + 1))) = (text, t :: ts2)
    rw [List.take_left, htx, drop_append_cons, parseTags_tagsFmt ts2 t hwf]

/-- Splitting the formatter output when the text is empty and there is
exactly one tag. -/
theorem extract_format_onetag {t : List Char} (hwf : wfTag t) :
    extractTextAndTags ('#' :: t) = ([], [t]) := by
  obtain ⟨ht1, ht2, ht3⟩ := hwf
  have hhead : ∀ c, ('#' :: t).head? = some c → isGoSpace c = false := by
    intro c hc
    rw [List.head?_cons, Option.some.injEq] at hc
    subst hc
    decide
  have hlast : ∀ c, ('#' :: t).getLast? = some c → isGoSpace c = false := by
    intro c hc
    rcases hlt : t.getLast? with _ | c2
    · rw [List.getLast?_eq_none_iff] at hlt
      exact absurd hlt ht1
    · rw [show ('#' :: t) = ['#'] ++ t from rfl, getLast?_append_right hlt,
        Option.some.injEq] at hc
      subst hc
      exact ht3 _ (mem_of_getLast? hlt)
  unfold extractTextAndTags
  rw [trim_eq_self_of hhead hlast]
  unfold extractCore
  rw [if_neg (by simp)]
  rw [idxSpaceHash_none_of_no_space (by
    intro c hc he
    subst he
    rcases List.mem_cons.1 hc with h1 | h1
    · cases h1
    · exact absurd (ht3 ' ' h1) (by decide))]
  rw [if_pos (by simp)]
  have := parseTags_tagsFmt [] t (by
    intro t2 h2
    rcases List.mem_cons.1 h2 with rfl | h3
    · exact ⟨ht1, ht2, ht3⟩
    · simp at h3)
  rw [show tagsFmt [] = [] from rfl, List.append_nil] at this
  rw [this]

/-! ### Claim C1: format/parse round trip -/

theorem parseEntryLine_shape (c a b u v : Char) (rest : List Char) :
    parseEntryLine ('-' :: ' ' :: '[' :: c :: ']' :: ' ' :: '[' ::
      a :: b :: ':' :: u :: v :: ']' :: ' ' :: rest) =
      if (c = ' ' ∨ c = 'x') ∧ isDigitC a ∧ isDigitC b ∧ isDigitC u ∧
          isDigitC v ∧ '\n' ∉ rest then
        if 10 * digitVal a + digitVal b < 24 ∧
            10 * digitVal u + digitVal v < 60 then
          some ⟨if c = 'x' then .done else .todo,
            10 * digitVal a + digitVal b, 10 * digitVal u + digitVal v,
            (extractTextAndTags rest).1, (extractTextAndTags rest).2⟩
        else none
      else none := rfl

theorem statusChar_cases (s : Status) :
    statusChar s = ' ' ∨ statusChar s = 'x' := by
  cases s
  · exact Or.inl rfl
  · exact Or.inr rfl

theorem statusChar_roundtrip (s : Status) :
    (if statusChar s = 'x' then Status.done else Status.todo) = s := by
  cases s <;> rfl

theorem nl_not_mem_tagsFmt {ts : List (List Char)}
    (hwf : ∀ t ∈ ts, wfTag t) : '\n' ∉ tagsFmt ts := by
  intro hmem
  rcases mem_of_mem_tagsFmt _ hmem with h1 | h1 | ⟨t2, ht2, hc2⟩
  · exact absurd h1 (by decide)
  · exact absurd h1 (by decide)
  · exact absurd ((hwf t2 ht2).2.2 _ hc2) (by decide)

/-- C1 counterexample: the entry with empty text and tags `a`, `b` has
printable text and white-space-free tags, but formatting then parsing
does not return it: the formatted line `- [ ] [09:00] #a #b` parses back
with text `#a` and the single tag `b` (the `" #"` split fires before the
leading-hash rule). -/
theorem C1_cex_empty_text_two_tags :
    parseEntryLine (formatEntry ⟨.todo, 9, 0, [], [chars "a", chars "b"]⟩) =
      some ⟨.todo, 9, 0, chars "#a", [chars "b"]⟩ ∧
    parseEntryLine (formatEntry ⟨.todo, 9, 0, [], [chars "a", chars "b"]⟩) ≠
      some ⟨.todo, 9, 0, [], [chars "a", chars "b"]⟩ ∧
    parseEntryLine (formatEntry ⟨.todo, 9, 0, [], []⟩) = none := by
  refine ⟨by rfl, ?_, by rfl⟩
  intro h
  rw [show parseEntryLine (formatEntry ⟨.todo, 9, 0, [], [chars "a", chars "b"]⟩) =
    some ⟨.todo, 9, 0, chars "#a", [chars "b"]⟩ from rfl] at h
  have := Option.some.inj h
  have htx := congrArg Entry.text this
  simp [chars] at htx

/-- C1 (amended): `parse (format e) = e` holds for every entry whose
time of day is valid, whose text carries no surrounding white space, no
newline and no `" #"` occurrence, whose tags are non-empty, free of
white space and do not start with `'#'`, and which avoids the two corner
cases the format cannot represent: text and tags must not both be empty,
text may begin with `'#'` only if a tag follows, and an entry with empty
text may carry at most one tag. -/
theorem C1_roundtrip_amended (e : Entry)
    (hh : e.hour < 24) (hm : e.minute < 60)
    (htx : trim e.text = e.text)
    (hnl : '\n' ∉ e.text)
    (hsh : idxSpaceHash e.text = none)
    (htags : ∀ t ∈ e.tags, wfTag t)
    (hne : ¬ (e.text = [] ∧ e.tags = []))
    (hhash : e.text.head? = some '#' → e.tags ≠ [])
    (hone : e.text = [] → e.tags.length ≤ 1) :
    parseEntryLine (formatEntry e) = some e := by
  rcases e with ⟨st, hr, mn, tx, tg⟩
  simp only at hh hm htx hnl hsh htags hne hhash hone
  have hcond2 : 10 * digitVal (digitChar (hr / 10 % 10)) +
      digitVal (digitChar (hr % 10)) = hr := by
    rw [digitVal_digitChar (by omega), digitVal_digitChar (by omega)]
    omega
  have hcond3 : 10 * digitVal (digitChar (mn / 10 % 10)) +
      digitVal (digitChar (mn % 10)) = mn := by
    rw [digitVal_digitChar (by omega), digitVal_digitChar (by omega)]
    omega
  by_cases htxe : tx = []
  · subst htxe
    rcases tg with _ | ⟨t, ts⟩
    · exact absurd ⟨rfl, rfl⟩ hne
    · have hts : ts = [] := by
        rcases ts with _ | ⟨t2, ts2⟩
        · rfl
        · have := hone rfl
          simp [List.length_cons] at this
      subst hts
      have hwt := htags t (List.mem_cons_self _ _)
      have hfe : formatEntry ⟨st, hr, mn, [], [t]⟩ =
          '-' :: ' ' :: '[' :: statusChar st :: ']' :: ' ' :: '[' ::
          digitChar (hr / 10 % 10) :: digitChar (hr % 10) :: ':' ::
          digitChar (mn / 10 % 10) :: digitChar (mn % 10) :: ']' :: ' ' ::
          '#' :: t := by
        simp [formatEntry, tagsFmt]
      rw [hfe, parseEntryLine_shape]
      rw [if_pos ⟨statusChar_cases st, isDigitC_digitChar _, isDigitC_digitChar _,
        isDigitC_digitChar _, isDigitC_digitChar _, by
          intro hmem
          rcases List.mem_cons.1 hmem with h1 | h1
          · exact absurd h1 (by decide)
          · exact absurd (hwt.2.2 _ h1) (by decide)⟩]
      rw [if_pos (by rw [hcond2, hcond3]; exact ⟨hh, hm⟩)]
      rw [extract_format_onetag hwt]
      rw [hcond2, hcond3, statusChar_roundtrip]
  · rcases hlast9 : tg with _ | ⟨t, ts⟩ <;> rw [← hlast9] at *
    all_goals
      have hfe : formatEntry ⟨st, hr, mn, tx, tg⟩ =
          '-' :: ' ' :: '[' :: statusChar st :: ']' :: ' ' :: '[' ::
          digitChar (hr / 10 % 10) :: digitChar (hr % 10) :: ':' ::
          digitChar (mn / 10 % 10) :: digitChar (mn % 10) :: ']' :: ' ' ::
          (tx ++ tagsFmt tg) := by
        simp [formatEntry, htxe]
      rw [hfe, parseEntryLine_shape]
      rw [if_pos ⟨statusChar_cases st, isDigitC_digitChar _, isDigitC_digitChar _,
        isDigitC_digitChar _, isDigitC_digitChar _, by
          intro hmem
          rcases List.mem_append.1 hmem with h1 | h1
          · exact hnl h1
          · exact nl_not_mem_tagsFmt htags h1⟩]
      rw [if_pos (by rw [hcond2, hcond3]; exact ⟨hh, hm⟩)]
      rw [extract_format_text htx htxe hsh htags hhash]
      rw [hcond2, hcond3, statusChar_roundtrip]

theorem C1_roundtrip_amended_witness :
    parseEntryLine (formatEntry ⟨.done, 10, 30, chars "Update docs",
      [chars "docs"]⟩) =
      some ⟨.done, 10, 30, chars "Update docs", [chars "docs"]⟩ := by
  apply C1_roundtrip_amended
  · decide
  · decide
  · decide
  · decide
  · decide
  · intro t ht
    rcases List.mem_cons.1 ht with rfl | h2
    · exact ⟨by decide, by decide, by decide⟩
    · simp at h2
  · rintro ⟨h1, -⟩
    simp [chars] at h1
  · intro h1
    simp [chars] at h1
  · intro h1
    simp [chars] at h1

/-! ### Claim C4: toggling twice restores the file -/

theorem trim_trim (l : List Char) : trim (trim l) = trim l :=
  trim_eq_self_of (fun _ hc => trim_head_not_space hc)
    (fun _ hc => trim_getLast_not_space hc)

theorem fields_no_space :
    ∀ (l acc : List Char), (∀ c ∈ acc, isGoSpace c = false) →
      ∀ f ∈ fieldsAux l acc, ∀ c ∈ f, isGoSpace c = false := by
  intro l
  induction l with
  | nil =>
    intro acc hacc f hf c hc
    simp only [fieldsAux] at hf
    split at hf
    · simp at hf
    · rw [List.mem_singleton] at hf
      subst hf
      exact hacc c (List.mem_reverse.1 hc)
  | cons a tl ih =>
    intro acc hacc f hf c hc
    simp only [fieldsAux] at hf
    split at hf
    · split at hf
      · exact ih [] (by simp) f hf c hc
      · rcases List.mem_cons.1 hf with rfl | hf2
        · exact hacc c (List.mem_reverse.1 hc)
        · exact ih [] (by simp) f hf2 c hc
    · rename_i hsp
      refine ih (a :: acc) ?_ f hf c hc
      intro c2 hc2
      rcases List.mem_cons.1 hc2 with rfl | hc3
      · simpa using hsp
      · exact hacc c2 hc3

theorem parseTags_props {seg : List Char} :
    ∀ t ∈ parseTags seg, wfTag t := by
  intro t ht
  unfold parseTags at ht
  rcases List.mem_filterMap.1 ht with ⟨f, hf, hsome⟩
  split at hsome
  · rename_i hcond
    split at hsome
    · rename_i hne
      cases hsome
      refine ⟨hne, ?_, ?_⟩
      · intro hhd
        have := head?_dropWhile_not (· = '#') f _ hhd
        simp at this
      · intro c hc
        exact fields_no_space seg [] (by simp) f hf c
          ((List.dropWhile_sublist _).subset hc)
    · cases hsome
  · cases hsome

theorem extractCore_text_trim {r : List Char} (hr : trim r = r) :
    trim (extractCore r).1 = (extractCore r).1 := by
  rcases h : extractCore r with ⟨t, tg⟩
  unfold extractCore at h
  split at h
  · cases h
    rfl
  · split at h
    · cases h
      exact trim_trim _
    · split at h <;> cases h
      · rfl
      · exact hr

theorem extractCore_tags_wf {r : List Char} :
    ∀ t ∈ (extractCore r).2, wfTag t := by
  intro t ht
  rcases h : extractCore r with ⟨tx, tg⟩
  rw [h] at ht
  unfold extractCore at h
  split at h
  · cases h
    simp at ht
  · split at h
    · cases h
      exact parseTags_props t ht
    · split at h <;> cases h
      · exact parseTags_props t ht
      · simp at ht

/-- Parsed entries have trim-stable text, well-formed tags, a valid time
of day, and newline-free text. -/
theorem parse_props {l : List Char} {e : Entry}
    (hp : parseEntryLine l = some e) :
    trim e.text = e.text ∧ (∀ t ∈ e.tags, wfTag t) ∧
      e.hour < 24 ∧ e.minute < 60 ∧ '\n' ∉ e.text := by
  unfold parseEntryLine at hp
  split at hp
  · rename_i c0 a b u v rest
    split at hp
    · rename_i hcond
      split at hp
      · rename_i hcond2
        simp only [Option.some.injEq] at hp
        subst hp
        refine ⟨extractCore_text_trim (trim_trim rest), extractCore_tags_wf,
          by simpa using hcond2.1, by simpa using hcond2.2, ?_⟩
        intro hmem
        exact hcond.2.2.2.2.2 (mem_of_mem_trim (mem_of_mem_extractCore.1 hmem))
      · cases hp
    · cases hp
  · cases hp

/-- A formatted line of a parsed-like entry carries no surrounding white
space. -/
theorem formatEntry_trim {e : Entry} (htx : trim e.text = e.text)
    (hwf : ∀ t ∈ e.tags, wfTag t) : trim (formatEntry e) = formatEntry e := by
  apply trim_eq_self_of
  · intro c hc
    rw [show (formatEntry e).head? = some '-' from rfl, Option.some.injEq] at hc
    subst hc
    decide
  · intro c hc
    rcases htg : e.tags with _ | ⟨t, ts⟩
    · rcases htxe : e.text with _ | ⟨a, tx2⟩
      · rw [show formatEntry e = '-' :: ' ' :: '[' :: statusChar e.status ::
          ']' :: ' ' :: '[' :: digitChar (e.hour / 10 % 10) ::
          digitChar (e.hour % 10) :: ':' :: digitChar (e.minute / 10 % 10) ::
          digitChar (e.minute % 10) :: [']'] from by
            simp [formatEntry, htg, htxe, tagsFmt]] at hc
        rw [show ('-' :: ' ' :: '[' :: statusChar e.status ::
          ']' :: ' ' :: '[' :: digitChar (e.hour / 10 % 10) ::
          digitChar (e.hour % 10) :: ':' :: digitChar (e.minute / 10 % 10) ::
          digitChar (e.minute % 10) :: [']']).getLast? = some ']' from by
            rfl, Option.some.injEq] at hc
        subst hc
        decide
      · have hfe : formatEntry e = ('-' :: ' ' :: '[' :: statusChar e.status ::
            ']' :: ' ' :: '[' :: digitChar (e.hour / 10 % 10) ::
            digitChar (e.hour % 10) :: ':' :: digitChar (e.minute / 10 % 10) ::
            digitChar (e.minute % 10) :: ']' :: [' ']) ++ e.text := by
          simp [formatEntry, htg, htxe, tagsFmt]
        rcases hlt : e.text.getLast? with _ | c2
        · rw [List.getLast?_eq_none_iff] at hlt
          rw [hlt] at htxe
          cases htxe
        · rw [hfe, getLast?_append_right hlt, Option.some.injEq] at hc
          subst hc
          exact trim_getLast_not_space (htx ▸ hlt)
    · have hfe : formatEntry e = ('-' :: ' ' :: '[' :: statusChar e.status ::
          ']' :: ' ' :: '[' :: digitChar (e.hour / 10 % 10) ::
          digitChar (e.hour % 10) :: ':' :: digitChar (e.minute / 10 % 10) ::
          digitChar (e.minute % 10) :: ']' ::
          (if e.text.isEmpty then [] else ' ' :: e.text)) ++ tagsFmt (t :: ts) := by
        simp [formatEntry, htg]
      rcases hlt : (tagsFmt (t :: ts)).getLast? with _ | c2
      · rw [List.getLast?_eq_none_iff] at hlt
        exact absurd hlt (tagsFmt_ne_nil t ts)
      · rw [hfe, getLast?_append_right hlt, Option.some.injEq] at hc
        subst hc
        exact tagsFmt_getLast_not_space _ (htg ▸ hwf) _ hlt

theorem flipS_flipS (s : Status) : flipS (flipS s) = s := by
  cases s <;> rfl

/-- Toggling the status of an entry that round-trips through the
formatter yields an entry that also round-trips. -/
theorem parse_format_flip {e : Entry}
    (h : parseEntryLine (formatEntry e) = some e) :
    parseEntryLine (formatEntry (flipStatus e)) = some (flipStatus e) := by
  rcases e with ⟨st, hr, mn, tx, tg⟩
  by_cases htxe : tx = []
  · subst htxe
    rcases tg with _ | ⟨t, ts⟩
    · have hnone : parseEntryLine (formatEntry ⟨st, hr, mn, [], []⟩) = none := by
        cases st <;> rfl
      rw [hnone] at h
      cases h
    · have hfe : ∀ s2 : Status, formatEntry ⟨s2, hr, mn, [], t :: ts⟩ =
          '-' :: ' ' :: '[' :: statusChar s2 :: ']' :: ' ' :: '[' ::
          digitChar (hr / 10 % 10) :: digitChar (hr % 10) :: ':' ::
          digitChar (mn / 10 % 10) :: digitChar (mn % 10) :: ']' :: ' ' ::
          ('#' :: (t ++ tagsFmt ts)) := by
        intro s2
        simp [formatEntry, tagsFmt]
      rw [show flipStatus ⟨st, hr, mn, [], t :: ts⟩ =
        ⟨flipS st, hr, mn, [], t :: ts⟩ from rfl]
      rw [hfe st, parseEntryLine_shape] at h
      rw [hfe (flipS st), parseEntryLine_shape]
      split at h
      · rename_i hcond
        split at h
        · rename_i hcond2
          rw [if_pos ⟨statusChar_cases _, hcond.2⟩, if_pos hcond2]
          have hinj := Option.some.inj h
          simp only [Entry.mk.injEq] at hinj
          obtain ⟨-, hb, hc, hd, he2⟩ := hinj
          rw [hb, hc, hd, he2, statusChar_roundtrip]
        · cases h
      · cases h
  · have hfe : ∀ s2 : Status, formatEntry ⟨s2, hr, mn, tx, tg⟩ =
        '-' :: ' ' :: '[' :: statusChar s2 :: ']' :: ' ' :: '[' ::
        digitChar (hr / 10 % 10) :: digitChar (hr % 10) :: ':' ::
        digitChar (mn / 10 % 10) :: digitChar (mn % 10) :: ']' :: ' ' ::
        (tx ++ tagsFmt tg) := by
      intro s2
      simp [formatEntry, htxe]
    rw [show flipStatus ⟨st, hr, mn, tx, tg⟩ =
      ⟨flipS st, hr, mn, tx, tg⟩ from rfl]
    rw [hfe st, parseEntryLine_shape] at h
    rw [hfe (flipS st), parseEntryLine_shape]
    split at h
    · rename_i hcond
      split at h
      · rename_i hcond2
        rw [if_pos ⟨statusChar_cases _, hcond.2⟩, if_pos hcond2]
        have hinj := Option.some.inj h
        simp only [Entry.mk.injEq] at hinj
        obtain ⟨-, hb, hc, hd, he2⟩ := hinj
        rw [hb, hc, hd, he2, statusChar_roundtrip]
      · cases h
    · cases h

theorem splitOnNl_no_nl_eq {l : List Char} (h : '\n' ∉ l) :
    splitOnNl l = [l] := by
  induction l with
  | nil => rfl
  | cons c tl ih =>
    rw [splitOnNl, if_neg (fun hc => h (by rw [← hc]; exact List.mem_cons_self _ _))]
    rw [ih (fun hm => h (List.mem_cons_of_mem _ hm))]

theorem splitOnNl_word {w rest : List Char} (h : '\n' ∉ w) :
    splitOnNl (w ++ '\n' :: rest) = w :: splitOnNl rest := by
  induction w with
  | nil =>
    rw [List.nil_append, splitOnNl, if_pos rfl]
  | cons c w2 ih =>
    rw [List.cons_append, splitOnNl,
      if_neg (fun hc => h (by rw [← hc]; exact List.mem_cons_self _ _))]
    rw [ih (fun hm => h (List.mem_cons_of_mem _ hm))]

theorem joinNl_ne_nil {ls : List (List Char)} {w : List Char}
    (hl : ls.getLast? = some w) (hw : w ≠ []) : joinNl ls ≠ [] := by
  induction ls with
  | nil => simp at hl
  | cons l tl ih =>
    rcases tl with _ | ⟨l2, tl2⟩
    · rw [show joinNl [l] = l from rfl]
      rw [List.getLast?_singleton, Option.some.injEq] at hl
      exact hl ▸ hw
    · rw [show joinNl (l :: l2 :: tl2) = l ++ '\n' :: joinNl (l2 :: tl2) from rfl]
      simp

theorem joinNl_getLast {ls : List (List Char)} {w : List Char}
    (hl : ls.getLast? = some w) (hw : w ≠ []) :
    (joinNl ls).getLast? = w.getLast? := by
  induction ls with
  | nil => simp at hl
  | cons l tl ih =>
    rcases tl with _ | ⟨l2, tl2⟩
    · rw [List.getLast?_singleton, Option.some.injEq] at hl
      subst hl
      rfl
    · rw [List.getLast?_cons_cons] at hl
      have hne2 : joinNl (l2 :: tl2) ≠ [] := joinNl_ne_nil hl hw
      rw [show joinNl (l :: l2 :: tl2) = l ++ '\n' :: joinNl (l2 :: tl2) from rfl]
      rw [← ih hl]
      rcases hX : joinNl (l2 :: tl2) with _ | ⟨x, xs⟩
      · exact absurd hX hne2
      · rcases hg : (x :: xs).getLast? with _ | c
        · simp at hg
        · rw [getLast?_append_right (by rw [List.getLast?_cons_cons, hg] :
            ('\n' :: x :: xs).getLast? = some c)]

theorem splitOnNl_joinNl_concat :
    ∀ ls : List (List Char), ls ≠ [] → (∀ l ∈ ls, '\n' ∉ l) →
      splitOnNl (joinNl ls ++ ['\n']) = ls ++ [[]] := by
  intro ls
  induction ls with
  | nil => intro h; exact absurd rfl h
  | cons l tl ih =>
    intro _ hnl
    rcases tl with _ | ⟨l2, tl2⟩
    · rw [show joinNl [l] = l from rfl]
      rw [show (l ++ ['\n'] : List Char) = l ++ '\n' :: [] from rfl]
      rw [splitOnNl_word (hnl l (List.mem_cons_self _ _))]
      rfl
    · rw [show joinNl (l :: l2 :: tl2) = l ++ '\n' :: joinNl (l2 :: tl2) from rfl]
      rw [List.append_assoc, List.cons_append]
      rw [splitOnNl_word (hnl l (List.mem_cons_self _ _))]
      rw [ih (by simp) (fun l3 h3 => hnl l3 (List.mem_cons_of_mem _ h3))]
      rfl

/-- Splitting the content written by `writeLines` recovers the written
lines, provided no line contains a newline or carriage return and the
last line is nonempty. -/
theorem splitLines_joinLines {ls : List (List Char)} (hne : ls ≠ [])
    (hnl : ∀ l ∈ ls, '\n' ∉ l) (hcr : ∀ l ∈ ls, '\r' ∉ l)
    {w : List Char} (hlast : ls.getLast? = some w) (hw : w ≠ []) :
    splitLines (joinLines ls) = ls := by
  have hjcr : '\r' ∉ joinLines ls := joinLines_no_cr hcr
  have hjl : joinLines ls = joinNl ls ++ ['\n'] := by
    unfold joinLines
    rw [if_neg (fun hEq => hnl w (mem_of_getLast? hlast)
      (mem_of_getLast? ((joinNl_getLast hlast hw).symm.trans hEq)))]
  rw [hjl]
  unfold splitLines
  rw [replaceCRLF_eq_self (by rw [← hjl]; exact hjcr)]
  rw [splitOnNl_joinNl_concat ls hne hnl]
  rw [if_pos (by rw [List.getLast?_concat])]
  rw [List.dropLast_concat]

theorem set_drop_comm {α : Type} :
    ∀ (l : List α) (i j : Nat) (a : α), i ≤ j →
      (l.set j a).drop i = (l.drop i).set (j - i) a := by
  intro l
  induction l with
  | nil => intro i j a h; simp
  | cons x tl ih =>
    intro i j a h
    rcases i with _ | i2
    · simp
    · rcases j with _ | j2
      · omega
      · rw [List.set_cons_succ, List.drop_succ_cons, List.drop_succ_cons,
          ih i2 j2 a (by omega)]
        congr 1
        omega

theorem set_take_comm {α : Type} :
    ∀ (l : List α) (n j : Nat) (a : α), j < n →
      (l.set j a).take n = (l.take n).set j a := by
  intro l
  induction l with
  | nil => intro n j a h; simp
  | cons x tl ih =>
    intro n j a h
    rcases n with _ | n2
    · omega
    · rcases j with _ | j2
      · simp
      · rw [List.set_cons_succ, List.take_succ_cons, List.take_succ_cons,
          List.set_cons_succ, ih n2 j2 a (by omega)]

theorem set_getD_self {α : Type} (d : α) :
    ∀ (l : List α) (n : Nat), n < l.length → l.set n (l.getD n d) = l := by
  intro l
  induction l with
  | nil => intro n h; simp at h
  | cons x tl ih =>
    intro n h
    rcases n with _ | n2
    · rfl
    · rw [List.getD_cons_succ, List.set_cons_succ,
        ih n2 (by simpa using Nat.lt_of_succ_lt_succ h)]

theorem findFrom_congr_set (p : List Char → Bool) :
    ∀ (ls : List (List Char)) (j : Nat) (a : List Char),
      p a = p (ls.getD j []) →
      findFrom p (ls.set j a) = findFrom p ls := by
  intro ls
  induction ls with
  | nil => intro j a h; simp
  | cons l tl ih =>
    intro j a h
    rcases j with _ | j2
    · rw [List.getD_cons_zero] at h
      rw [List.set_cons_zero, findFrom, findFrom, h]
    · rw [List.getD_cons_succ] at h
      rw [List.set_cons_succ, findFrom, findFrom, ih j2 a h]

theorem entryScan_map_id {base cut : Nat} (eNew : Entry)
    (hcut : cut < base) :
    ∀ ls : List (List Char),
      (entryScan base ls).map
        (fun p => if p.1 = cut then (p.1, eNew) else p) = entryScan base ls := by
  intro ls
  refine ((List.map_congr_left ?_).trans (List.map_id _))
  intro p hp
  have := entryScan_mem_bounds p.2 ls base p.1 (by
    rcases p with ⟨p1, p2⟩
    exact hp)
  rw [if_neg (by omega)]
  rfl

theorem entryScan_set :
    ∀ (ls : List (List Char)) (base j : Nat) (a : List Char)
      (eOld eNew : Entry), j < ls.length →
      parseEntryLine (trim (ls.getD j [])) = some eOld →
      parseEntryLine (trim a) = some eNew →
      entryScan base (ls.set j a) =
        (entryScan base ls).map
          (fun p => if p.1 = base + j then (p.1, eNew) else p) := by
  intro ls
  induction ls with
  | nil => intro base j a eOld eNew h; simp at h
  | cons l tl ih =>
    intro base j a eOld eNew hlen hOld hNew
    rcases j with _ | j2
    · rw [List.getD_cons_zero] at hOld
      rw [List.set_cons_zero]
      rw [show entryScan base (a :: tl) =
        (base, eNew) :: entryScan (base + 1) tl from by
          rw [entryScan, hNew]]
      rw [show entryScan base (l :: tl) =
        (base, eOld) :: entryScan (base + 1) tl from by
          rw [entryScan, hOld]]
      rw [List.map_cons]
      rw [if_pos (by omega)]
      rw [show base + 0 = base from rfl]
      rw [entryScan_map_id eNew (by omega)]
    · rw [List.getD_cons_succ] at hOld
      rw [List.set_cons_succ]
      have hrec := ih (base + 1) j2 a eOld eNew
        (by simpa using Nat.lt_of_succ_lt_succ hlen) hOld hNew
      rcases hpl : parseEntryLine (trim l) with _ | el
      · rw [show entryScan base (l :: tl.set j2 a) =
          entryScan (base + 1) (tl.set j2 a) from by rw [entryScan, hpl]]
        rw [show entryScan base (l :: tl) =
          entryScan (base + 1) tl from by rw [entryScan, hpl]]
        rw [hrec, show base + 1 + j2 = base + (j2 + 1) from by omega]
      · rw [show entryScan base (l :: tl.set j2 a) =
          (base, el) :: entryScan (base + 1) (tl.set j2 a) from by
            rw [entryScan, hpl]]
        rw [show entryScan base (l :: tl) =
          (base, el) :: entryScan (base + 1) tl from by rw [entryScan, hpl]]
        rw [List.map_cons, if_neg (by omega), hrec,
          show base + 1 + j2 = base + (j2 + 1) from by omega]

theorem entryScan_getD_parse :
    ∀ (ls : List (List Char)) (base : Nat) (q : Nat × Entry),
      q ∈ entryScan base ls →
      parseEntryLine (trim (ls.getD (q.1 - base) [])) = some q.2 := by
  intro ls
  induction ls with
  | nil => intro base q h; simp [entryScan] at h
  | cons l tl ih =>
    intro base q h
    rcases hpl : parseEntryLine (trim l) with _ | el <;>
      rw [entryScan, hpl] at h
    · have hbd := entryScan_mem_bounds q.2 tl (base + 1) q.1 (by
        rcases q with ⟨q1, q2⟩
        exact h)
      have := ih (base + 1) q h
      rw [show q.1 - base = (q.1 - (base + 1)) + 1 from by omega,
        List.getD_cons_succ]
      exact this
    · rcases List.mem_cons.1 h with rfl | h2
      · rw [show ((base, el) : Nat × Entry).1 - base = 0 from by omega,
          List.getD_cons_zero]
        exact hpl
      · have hbd := entryScan_mem_bounds q.2 tl (base + 1) q.1 (by
          rcases q with ⟨q1, q2⟩
          exact h2)
        have := ih (base + 1) q h2
        rw [show q.1 - base = (q.1 - (base + 1)) + 1 from by omega,
          List.getD_cons_succ]
        exact this

theorem getD_map_fst (pairs : List (Nat × Entry)) (n : Nat) (d : Nat × Entry)
    (h : n < pairs.length) :
    (pairs.map Prod.fst).getD n d.1 = (pairs.getD n d).1 := by
  rw [List.getD_eq_getElem _ _ (by simpa using h), List.getD_eq_getElem _ _ h,
    List.getElem_map]

theorem getD_map_snd (pairs : List (Nat × Entry)) (n : Nat) (d : Nat × Entry)
    (h : n < pairs.length) :
    (pairs.map Prod.snd).getD n d.2 = (pairs.getD n d).2 := by
  rw [List.getD_eq_getElem _ _ (by simpa using h), List.getD_eq_getElem _ _ h,
    List.getElem_map]

/-! ### Claim C4: toggling the same index twice -/

/-- A line accepted by the entry pattern starts with `'-'`. -/
theorem parse_head_dash {x : List Char} {e : Entry}
    (hp : parseEntryLine x = some e) : ∃ tl, x = '-' :: tl := by
  unfold parseEntryLine at hp
  split at hp
  · exact ⟨_, rfl⟩
  · cases hp

/-- A line that parses as an entry (after trimming) is neither trim-equal
to a date heading nor `"## "`-prefixed after trimming — so the heading
scans of `loadSection` ignore it. -/
theorem parsed_pred_false {x : List Char} {e : Entry} (d : Date)
    (hp : parseEntryLine (trim x) = some e) :
    decide (trim x = dateHeading d) = false ∧
      hasPrefix (chars "## ") (trim x) = false := by
  rcases parse_head_dash hp with ⟨tl, htl⟩
  refine ⟨decide_eq_false fun hEq => ?_, by rw [htl]; rfl⟩
  have h3 : '-' :: tl = dateHeading d := htl.symm.trans hEq
  have h2 : ('-' : Char) = '#' := Option.some.inj (congrArg List.head? h3)
  exact absurd h2 (by decide)

/-- Replacing the second component of the pair whose line index is `k`
does not change the projection to line indexes. -/
theorem map_fst_replace (pairs : List (Nat × Entry)) (k : Nat) (eNew : Entry) :
    (pairs.map fun p => if p.1 = k then (p.1, eNew) else p).map Prod.fst =
      pairs.map Prod.fst := by
  rw [List.map_map]
  apply List.map_congr_left
  intro q hq
  by_cases h : q.1 = k
  · simp [h]
  · simp [h]

theorem getD_map_repl_snd (pairs : List (Nat × Entry)) (n k : Nat) (eNew : Entry)
    (hn : n < pairs.length) (hk : (pairs.getD n (0, default)).1 = k) :
    ((pairs.map fun p => if p.1 = k then (p.1, eNew) else p).map Prod.snd).getD
      n default = eNew := by
  rw [List.getD_eq_getElem _ _ (by simpa using hn)]
  simp only [List.getElem_map]
  rw [List.getD_eq_getElem _ _ hn] at hk
  rw [if_pos hk]

theorem flipStatus_flipStatus (e : Entry) : flipStatus (flipStatus e) = e := by
  rcases e with ⟨s, h, m, t, g⟩
  cases s <;> rfl

/-- Shape of a successfully located section: the heading line index, the
scan cutoff, and the record built from the entry scan of the body. -/
theorem locateSection_some_elim (d : Date) (lines : List (List Char))
    (st : SectionState) (hst : locateSection d lines = some st) :
    ∃ start stop,
      findFrom (fun l => decide (trim l = dateHeading d)) lines = some start ∧
      (findFrom (fun l => hasPrefix (chars "## ") (trim l))
          (lines.drop (start + 1))).getD (lines.drop (start + 1)).length = stop ∧
      st = ⟨⟨d, (entryScan (start + 1)
            ((lines.drop (start + 1)).take stop)).map Prod.snd⟩,
        start, start + 1 + stop,
        (entryScan (start + 1) ((lines.drop (start + 1)).take stop)).map Prod.fst⟩ := by
  simp only [locateSection] at hst
  split at hst
  · exact absurd hst (by simp)
  · rename_i start hfind
    simp only [Option.some.injEq] at hst
    exact ⟨start, _, hfind, rfl, hst.symm⟩

/-- The entry at position `n` of a located section is the parse of the
trim of the file line its recorded index points at. -/
theorem locateSection_getD_parse (d : Date) (lines : List (List Char))
    (st : SectionState) (hst : locateSection d lines = some st)
    (n k : Nat) (hn : n < st.entryIndexes.length)
    (hk : st.entryIndexes.getD n 0 = k) :
    parseEntryLine (trim (lines.getD k [])) =
      some (st.section_.entries.getD n default) := by
  obtain ⟨start, stop, hfind, -, rfl⟩ := locateSection_some_elim d lines st hst
  simp only at hn hk ⊢
  have hnp : n < (entryScan (start + 1)
      ((lines.drop (start + 1)).take stop)).length := by
    rw [← List.length_map (entryScan (start + 1)
      ((lines.drop (start + 1)).take stop)) Prod.fst]
    exact hn
  have hq1 : ((entryScan (start + 1)
      ((lines.drop (start + 1)).take stop)).getD n (0, default)).1 = k := by
    rw [← getD_map_fst _ n (0, default) hnp]
    exact hk
  have hqmem : (entryScan (start + 1)
        ((lines.drop (start + 1)).take stop)).getD n (0, default)
      ∈ entryScan (start + 1) ((lines.drop (start + 1)).take stop) := by
    rw [List.getD_eq_getElem _ _ hnp]
    exact List.getElem_mem hnp
  have hqb := entryScan_mem_bounds
    ((entryScan (start + 1) ((lines.drop (start + 1)).take stop)).getD
      n (0, default)).2
    ((lines.drop (start + 1)).take stop) (start + 1)
    ((entryScan (start + 1) ((lines.drop (start + 1)).take stop)).getD
      n (0, default)).1
    hqmem
  have hE2 := entryScan_getD_parse ((lines.drop (start + 1)).take stop) (start + 1)
    ((entryScan (start + 1) ((lines.drop (start + 1)).take stop)).getD
      n (0, default)) hqmem
  rw [hq1] at hqb hE2
  obtain ⟨hkge, hklt0⟩ := hqb
  have hmlen : k - (start + 1) < ((lines.drop (start + 1)).take stop).length := by
    omega
  have hm2 : k - (start + 1) < stop := by
    rw [List.length_take] at hmlen
    omega
  rw [List.getD_eq_getElem?_getD, List.getElem?_take_of_lt hm2, List.getElem?_drop,
    show start + 1 + (k - (start + 1)) = k from by omega,
    ← List.getD_eq_getElem?_getD] at hE2
  rw [hE2, getD_map_snd _ n (0, default) hnp]

/-- Replacing the located entry line by another line that parses as an
entry relocates the very same section: same span, same entry line
indexes, and the parsed entry at the replaced position is the new one. -/
theorem locateSection_set (d : Date) (lines : List (List Char))
    (st : SectionState) (hst : locateSection d lines = some st)
    (n k : Nat) (hn : n < st.entryIndexes.length)
    (hk : st.entryIndexes.getD n 0 = k)
    (eOld eNew : Entry)
    (hOld : parseEntryLine (trim (lines.getD k [])) = some eOld)
    (L : List Char) (hL : parseEntryLine (trim L) = some eNew) :
    ∃ st2 : SectionState,
      locateSection d (lines.set k L) = some st2 ∧
      st2.entryIndexes = st.entryIndexes ∧
      st2.section_.entries.getD n default = eNew := by
  obtain ⟨start, stop, hfind, hstop, rfl⟩ := locateSection_some_elim d lines st hst
  simp only at hn hk ⊢
  have hnp : n < (entryScan (start + 1)
      ((lines.drop (start + 1)).take stop)).length := by
    rw [← List.length_map (entryScan (start + 1)
      ((lines.drop (start + 1)).take stop)) Prod.fst]
    exact hn
  have hq1 : ((entryScan (start + 1)
      ((lines.drop (start + 1)).take stop)).getD n (0, default)).1 = k := by
    rw [← getD_map_fst _ n (0, default) hnp]
    exact hk
  have hqmem : (entryScan (start + 1)
        ((lines.drop (start + 1)).take stop)).getD n (0, default)
      ∈ entryScan (start + 1) ((lines.drop (start + 1)).take stop) := by
    rw [List.getD_eq_getElem _ _ hnp]
    exact List.getElem_mem hnp
  have hqb := entryScan_mem_bounds
    ((entryScan (start + 1) ((lines.drop (start + 1)).take stop)).getD
      n (0, default)).2
    ((lines.drop (start + 1)).take stop) (start + 1)
    ((entryScan (start + 1) ((lines.drop (start + 1)).take stop)).getD
      n (0, default)).1
    hqmem
  rw [hq1] at hqb
  obtain ⟨hkge, hklt0⟩ := hqb
  have hmlen : k - (start + 1) < ((lines.drop (start + 1)).take stop).length := by
    omega
  have hm2 : k - (start + 1) < stop := by
    rw [List.length_take] at hmlen
    omega
  have hOld2 : parseEntryLine (trim (((lines.drop (start + 1)).take stop).getD
      (k - (start + 1)) [])) = some eOld := by
    rw [List.getD_eq_getElem?_getD, List.getElem?_take_of_lt hm2,
      List.getElem?_drop,
      show start + 1 + (k - (start + 1)) = k from by omega,
      ← List.getD_eq_getElem?_getD]
    exact hOld
  have hbody : (lines.drop (start + 1)).getD (k - (start + 1)) [] =
      lines.getD k [] := by
    rw [List.getD_eq_getElem?_getD, List.getElem?_drop,
      show start + 1 + (k - (start + 1)) = k from by omega,
      ← List.getD_eq_getElem?_getD]
  have hpOld := parsed_pred_false d hOld
  have hpNew := parsed_pred_false d hL
  have hfind1 : findFrom (fun l => decide (trim l = dateHeading d))
      (lines.set k L) = some start := by
    rw [findFrom_congr_set _ lines k L (hpNew.1.trans hpOld.1.symm)]
    exact hfind
  have hdrop : (lines.set k L).drop (start + 1) =
      (lines.drop (start + 1)).set (k - (start + 1)) L :=
    set_drop_comm lines (start + 1) k L (by omega)
  have hstop1 : (findFrom (fun l => hasPrefix (chars "## ") (trim l))
        ((lines.set k L).drop (start + 1))).getD
      ((lines.set k L).drop (start + 1)).length = stop := by
    rw [hdrop, List.length_set,
      findFrom_congr_set _ (lines.drop (start + 1)) (k - (start + 1)) L
        (by rw [hbody]; exact hpNew.2.trans hpOld.2.symm)]
    exact hstop
  have htake : ((lines.drop (start + 1)).set (k - (start + 1)) L).take stop =
      ((lines.drop (start + 1)).take stop).set (k - (start + 1)) L :=
    set_take_comm (lines.drop (start + 1)) stop (k - (start + 1)) L hm2
  have hscan : entryScan (start + 1)
        (((lines.drop (start + 1)).take stop).set (k - (start + 1)) L) =
      (entryScan (start + 1) ((lines.drop (start + 1)).take stop)).map
        (fun p => if p.1 = k then (p.1, eNew) else p) := by
    rw [entryScan_set ((lines.drop (start + 1)).take stop) (start + 1)
        (k - (start + 1)) L eOld eNew hmlen hOld2 hL,
      show start + 1 + (k - (start + 1)) = k from by omega]
  refine ⟨⟨⟨d, ((entryScan (start + 1)
        ((lines.drop (start + 1)).take stop)).map
        (fun p => if p.1 = k then (p.1, eNew) else p)).map Prod.snd⟩,
      start, start + 1 + stop,
      (entryScan (start + 1) ((lines.drop (start + 1)).take stop)).map Prod.fst⟩,
    ?_, rfl, getD_map_repl_snd _ n k eNew hnp hq1⟩
  simp only [locateSection]
  rw [hfind1]
  refine congrArg some ?_
  rw [hstop1, hdrop, htake, hscan, map_fst_replace]

/-- C4 (amended): toggling the same (date, index) twice in succession
returns the entry to its original status, and leaves the monthly file
byte-identical provided the file is in the writer's own normal form: no
carriage return, the content round-trips through the line split/join
(LF-separated, newline-terminated, no empty last line), and the targeted
line is exactly the formatter's rendering of its parsed entry.  Without
the last proviso the first toggle canonicalises the line and byte-identity
fails (`C4_cex_noncanonical_line`). -/
theorem C4_toggle_twice_amended (d : Date) (content : List Char) (i : Int)
    (st : SectionState) (k : Nat) (e : Entry)
    (hcr : '\r' ∉ content)
    (hjoin : joinLines (splitLines content) = content)
    (hlast : (splitLines content).getLast? ≠ some [])
    (hst : locateSection d (splitLines content) = some st)
    (h1 : 1 ≤ i) (h2 : i ≤ st.entryIndexes.length)
    (hk : st.entryIndexes.getD (i.toNat - 1) 0 = k)
    (he : st.section_.entries.getD (i.toNat - 1) default = e)
    (hcanon : (splitLines content).getD k [] = formatEntry e) :
    (toggleOp d i (toggleOp d i content).2).1 = Except.ok e ∧
    (toggleOp d i (toggleOp d i content).2).2 = content := by
  have hn : i.toNat - 1 < st.entryIndexes.length := by omega
  have hparseK0 : parseEntryLine (trim ((splitLines content).getD k [])) =
      some e := by
    rw [← he]
    exact locateSection_getD_parse d (splitLines content) st hst (i.toNat - 1)
      k hn hk
  have hkmem : k ∈ st.entryIndexes := by
    rw [← hk, List.getD_eq_getElem _ _ hn]
    exact List.getElem_mem hn
  obtain ⟨-, -, hklt⟩ := locateSection_index_lt d (splitLines content) st hst k hkmem
  have hparseF : parseEntryLine (trim (formatEntry e)) = some e := by
    rw [← hcanon]
    exact hparseK0
  have props := parse_props hparseF
  have htrimF : trim (formatEntry e) = formatEntry e :=
    formatEntry_trim props.1 props.2.1
  have hre : parseEntryLine (formatEntry e) = some e := by
    rw [← htrimF]
    exact hparseF
  have hre1 : parseEntryLine (formatEntry (flipStatus e)) = some (flipStatus e) :=
    parse_format_flip hre
  have props1 := parse_props hre1
  have htrimF1 : trim (formatEntry (flipStatus e)) = formatEntry (flipStatus e) :=
    formatEntry_trim props1.1 props1.2.1
  have hparseL1 : parseEntryLine (trim (formatEntry (flipStatus e))) =
      some (flipStatus e) := by
    rw [htrimF1]
    exact hre1
  have hni : ¬ (i < 1 ∨ i > (st.entryIndexes.length : Int)) := by omega
  have ht1 : toggleOp d i content =
      (Except.ok (flipStatus e), joinLines ((splitLines content).set k
        (formatEntry (flipStatus e)))) := by
    simp only [toggleOp, loadSection, hst]
    rw [if_neg hni, hk, he]
  have hlfacts : ∀ l ∈ splitLines content, '\n' ∉ l ∧ '\r' ∉ l := by
    intro l hl
    obtain ⟨hnl, hsub⟩ := splitLines_line_facts hl
    exact ⟨hnl, fun hc => hcr (mem_of_mem_replaceCRLF _ (hsub _ hc))⟩
  have hlinemem : (splitLines content).getD k [] ∈ splitLines content := by
    rw [List.getD_eq_getElem _ _ hklt]
    exact List.getElem_mem hklt
  have hmemL1 : ∀ c, c ∈ formatEntry (flipStatus e) →
      c ∈ chars "- [x]:#0123456789" ∨ c ∈ (splitLines content).getD k [] := by
    intro c hc
    rcases mem_of_mem_formatEntry hc with hf | hf | ⟨t, ht, hct⟩
    · exact Or.inl hf
    · exact Or.inr (mem_of_mem_trim ((mem_of_mem_parse hparseK0).1 hf))
    · exact Or.inr (mem_of_mem_trim ((mem_of_mem_parse hparseK0).2 t ht hct))
  have hL1nl : '\n' ∉ formatEntry (flipStatus e) := by
    intro hc
    rcases hmemL1 _ hc with hf | hf
    · revert hf
      decide
    · exact (hlfacts _ hlinemem).1 hf
  have hL1cr : '\r' ∉ formatEntry (flipStatus e) := by
    intro hc
    rcases hmemL1 _ hc with hf | hf
    · revert hf
      decide
    · exact (hlfacts _ hlinemem).2 hf
  have hlines1 : ∀ l ∈ (splitLines content).set k (formatEntry (flipStatus e)),
      '\n' ∉ l ∧ '\r' ∉ l := by
    intro l hl
    rcases List.mem_or_eq_of_mem_set hl with h | rfl
    · exact hlfacts l h
    · exact ⟨hL1nl, hL1cr⟩
  have hne1 : (splitLines content).set k (formatEntry (flipStatus e)) ≠ [] :=
    List.length_pos.1 (by rw [List.length_set]; omega)
  have hlast1 : ∃ w, ((splitLines content).set k
      (formatEntry (flipStatus e))).getLast? = some w ∧ w ≠ [] := by
    by_cases hkl : k = (splitLines content).length - 1
    · refine ⟨formatEntry (flipStatus e), ?_, by simp [formatEntry]⟩
      rw [List.getLast?_eq_getElem?, List.length_set, ← hkl,
        List.getElem?_set_self hklt]
    · rcases hgl : (splitLines content).getLast? with _ | w
      · rw [List.getLast?_eq_none_iff] at hgl
        rw [hgl] at hklt
        simp at hklt
      · refine ⟨w, ?_, fun hwe => hlast (by rw [hgl, hwe])⟩
        rw [List.getLast?_eq_getElem?, List.length_set,
          List.getElem?_set_ne (by omega), ← List.getLast?_eq_getElem?]
        exact hgl
  obtain ⟨w1, hw1, hw1ne⟩ := hlast1
  have hsplit1 : splitLines (joinLines ((splitLines content).set k
      (formatEntry (flipStatus e)))) =
      (splitLines content).set k (formatEntry (flipStatus e)) :=
    splitLines_joinLines hne1 (fun l hl => (hlines1 l hl).1)
      (fun l hl => (hlines1 l hl).2) hw1 hw1ne
  obtain ⟨st2, hloc2, hidx2, hent2⟩ := locateSection_set d (splitLines content)
    st hst (i.toNat - 1) k hn hk e (flipStatus e) hparseK0
    (formatEntry (flipStatus e)) hparseL1
  have hni2 : ¬ (i < 1 ∨ i > (st2.entryIndexes.length : Int)) := by
    rw [hidx2]
    omega
  have hk2 : st2.entryIndexes.getD (i.toNat - 1) 0 = k := by
    rw [hidx2]
    exact hk
  have hflip2 : flipStatus (st2.section_.entries.getD (i.toNat - 1) default)
      = e := by
    rw [hent2, flipStatus_flipStatus]
  have ht2 : toggleOp d i (joinLines ((splitLines content).set k
      (formatEntry (flipStatus e)))) =
      (Except.ok e, joinLines (((splitLines content).set k
        (formatEntry (flipStatus e))).set k (formatEntry e))) := by
    simp only [toggleOp, loadSection, hsplit1, hloc2]
    rw [if_neg hni2, hk2, hflip2]
  have hrestore : ((splitLines content).set k (formatEntry (flipStatus e))).set k
      (formatEntry e) = splitLines content := by
    rw [List.set_set, ← hcanon]
    exact set_getD_self [] (splitLines content) k hklt
  rw [ht1]
  constructor
  · show (toggleOp d i (joinLines ((splitLines content).set k
      (formatEntry (flipStatus e))))).1 = Except.ok e
    rw [ht2]
  · show (toggleOp d i (joinLines ((splitLines content).set k
      (formatEntry (flipStatus e))))).2 = content
    rw [ht2, hrestore, hjoin]

/-- Witness for `C4_toggle_twice_amended`: toggling entry 1 of the
canonical two-entry file twice returns the original entry and the
original bytes. -/
theorem C4_toggle_twice_amended_witness :
    (toggleOp ⟨2025, 11, 4⟩ 1 (toggleOp ⟨2025, 11, 4⟩ 1 wFile).2).1 =
        Except.ok ⟨.todo, 9, 0, chars "a", [chars "b"]⟩ ∧
      (toggleOp ⟨2025, 11, 4⟩ 1 (toggleOp ⟨2025, 11, 4⟩ 1 wFile).2).2 = wFile :=
  C4_toggle_twice_amended ⟨2025, 11, 4⟩ wFile 1 wState 1
    ⟨.todo, 9, 0, chars "a", [chars "b"]⟩
    (by decide) (by rfl) (by decide) (by decide) (by decide) (by decide)
    (by decide) (by decide) (by decide)

/-- C4 counterexample: on a file whose entry line carries a double space
(`"- [ ] [09:00]  a"`), toggling index 1 twice restores the status — the
call returns the original entry — but the file is not byte-identical: the
first toggle rewrites the line as the canonical `"- [ ] [09:00] a"`. -/
theorem C4_cex_noncanonical_line :
    (toggleOp ⟨2025, 11, 4⟩ 1 (toggleOp ⟨2025, 11, 4⟩ 1
        (chars "## 2025-11-04\n- [ ] [09:00]  a\n")).2).1 =
      Except.ok ⟨.todo, 9, 0, chars "a", []⟩ ∧
    (toggleOp ⟨2025, 11, 4⟩ 1 (toggleOp ⟨2025, 11, 4⟩ 1
        (chars "## 2025-11-04\n- [ ] [09:00]  a\n")).2).2 ≠
      chars "## 2025-11-04\n- [ ] [09:00]  a\n" :=
  ⟨by rfl, by decide⟩

end Kerja
